import Mathlib

/-!
# Verification of the solaire spectral resynthesis core

A shallow embedding, over exact rationals, of the spectral peak extractor
(Source/SpectralPeakExtraction.h), the McAulay-Quatieri partial tracker
(Source/PartialTracking.h) and the engine-level modifier chain, bypass path and
parameter ingress (Source/PanharmoniumEngine.cpp), together with theorems that
settle the specification claims about them.

Modelling conventions:
* C++ `float` arithmetic is modelled by exact rational arithmetic; float
  literals such as 0.1f, 0.9f, 0.97f, 1e-10f, 0.001f are taken at their
  decimal value.
* `std::deque` and `std::vector` become `List`; in-place mutation becomes
  explicit state passing, preserving iteration order.
* `std::sort` with the strict comparator magnitude-greater-than is modelled
  relationally: the result is some permutation of the input that is sorted
  (non-increasing in magnitude).  `std::sort` is not stable, so no more than
  this is guaranteed by the C++ standard.
* The phase of a peak, `std::arg` of the complex bin, is an opaque per-bin
  value supplied as a function argument; no claim depends on its value.
-/

namespace Solaire

/-- `SpectralPeak` from SpectralPeakExtraction.h: one local maximum of the
magnitude spectrum. -/
structure SpectralPeak where
  frequency : ℚ
  magnitude : ℚ
  phase : ℚ
  binIndex : ℕ
deriving DecidableEq, Repr, Inhabited

/-- `juce::jlimit lo hi v` on values that are never NaN (rationals):
`v < lo ? lo : (hi < v ? hi : v)`. -/
def qclamp (lo hi v : ℚ) : ℚ :=
  if v < lo then lo else if hi < v then hi else v

/-- The sub-bin offset computed by `extractDominantPeaks`:
`denominator = 2*(2*y0 - y_plus1 - y_minus1)`; when `|denominator| > 1e-10`
the parabolic offset clamped to [-1/2, 1/2], else 0. -/
def computeDelta (ym y0 yp : ℚ) : ℚ :=
  if 1 / 10 ^ 10 < |2 * (2 * y0 - yp - ym)| then
    qclamp (-(1/2)) (1/2) ((ym - yp) / (2 * (2 * y0 - yp - ym)))
  else 0

/-- The candidate peak built at interior bin `i` of the magnitude list, as in
the body of the local-maximum loop of `extractDominantPeaks`. -/
def mkCandidate (mags : List ℚ) (sr : ℚ) (fftSize : ℕ) (phase : ℕ → ℚ)
    (i : ℕ) : SpectralPeak :=
  let ym := mags.getD (i - 1) 0
  let y0 := mags.getD i 0
  let yp := mags.getD (i + 1) 0
  let delta := computeDelta ym y0 yp
  let interpolatedBin : ℚ := (i : ℚ) + delta
  { frequency := interpolatedBin * sr / (fftSize : ℚ)
    magnitude := y0 - (1/4) * (ym - yp) * delta
    phase := phase i
    binIndex := i }

/-- The local-maximum test of `extractDominantPeaks`: interior bin strictly
above both neighbours. -/
def isLocalMax (mags : List ℚ) (i : ℕ) : Bool :=
  decide (1 ≤ i) && decide (i + 1 < mags.length) &&
  decide (mags.getD (i - 1) 0 < mags.getD i 0) &&
  decide (mags.getD (i + 1) 0 < mags.getD i 0)

/-- The candidate-collection loop of `extractDominantPeaks`: scan bins
`1 .. numBins-2` in ascending order, emitting a candidate at each local
maximum.  `mags.length` plays the role of `numBins`. -/
def extractCandidates (mags : List ℚ) (sr : ℚ) (fftSize : ℕ)
    (phase : ℕ → ℚ) : List SpectralPeak :=
  (List.range mags.length).filterMap fun i =>
    if isLocalMax mags i then some (mkCandidate mags sr fftSize phase i) else none

/-- Sorted the way the comparator `a.magnitude > b.magnitude` guarantees after
`std::sort`: non-increasing magnitudes. -/
def MagSortedGE (l : List SpectralPeak) : Prop :=
  List.Pairwise (fun a b => b.magnitude ≤ a.magnitude) l

/-- The ordering the specification asserts for the returned peak list:
strictly decreasing magnitude with ties broken by ascending bin index. -/
def LexSorted (l : List SpectralPeak) : Prop :=
  List.Pairwise
    (fun a b => b.magnitude < a.magnitude ∨
      (a.magnitude = b.magnitude ∧ a.binIndex < b.binIndex)) l

/-- Relational model of the tail of `extractDominantPeaks`: sort the
candidates with `std::sort` (any permutation that is non-increasing in
magnitude) and return the first `min maxPeaks |candidates|` entries. -/
def ExtractRel (mags : List ℚ) (sr : ℚ) (fftSize : ℕ) (phase : ℕ → ℚ)
    (maxPeaks : ℕ) (out : List SpectralPeak) : Prop :=
  ∃ sorted : List SpectralPeak,
    (extractCandidates mags sr fftSize phase).Perm sorted ∧
    MagSortedGE sorted ∧
    out = sorted.take (min maxPeaks sorted.length)

/-! ## Partial tracker (Source/PartialTracking.h) -/

/-- `PartialTrack` from PartialTracking.h.  `std::deque` histories become
lists, newest element last. -/
structure PartialTrack where
  trackID : ℤ
  frequency : ℚ
  amplitude : ℚ
  phase : ℚ
  prevFrequency : ℚ
  prevAmplitude : ℚ
  framesSinceCreation : ℕ
  framesSinceLastUpdate : ℕ
  isActive : Bool
  frequencyHistory : List ℚ
  amplitudeHistory : List ℚ
deriving DecidableEq, Repr, Inhabited

/-- The peak-construction constructor `PartialTrack(int, const SpectralPeak&)`. -/
def PartialTrack.fromPeak (id : ℤ) (p : SpectralPeak) : PartialTrack :=
  { trackID := id
    frequency := p.frequency
    amplitude := p.magnitude
    phase := p.phase
    prevFrequency := p.frequency
    prevAmplitude := p.magnitude
    framesSinceCreation := 1
    framesSinceLastUpdate := 0
    isActive := true
    frequencyHistory := [p.frequency]
    amplitudeHistory := [p.magnitude] }

/-- `PartialTrack::updateFromPeak`: copy current into prev, adopt the peak,
reset the unmatched counter, extend the bounded history (MAX_HISTORY_SIZE = 5). -/
def PartialTrack.updateFromPeak (t : PartialTrack) (p : SpectralPeak) : PartialTrack :=
  let fh := t.frequencyHistory ++ [p.frequency]
  let ah := t.amplitudeHistory ++ [p.magnitude]
  { t with
    prevFrequency := t.frequency
    prevAmplitude := t.amplitude
    frequency := p.frequency
    amplitude := p.magnitude
    phase := p.phase
    framesSinceLastUpdate := 0
    framesSinceCreation := t.framesSinceCreation + 1
    frequencyHistory := if 5 < fh.length then fh.drop 1 else fh
    amplitudeHistory := if 5 < fh.length then ah.drop 1 else ah }

/-- `PartialTrack::fadeOut`: decay amplitude by 0.9 and increment the
unmatched counter (note: it does increment `framesSinceLastUpdate`). -/
def PartialTrack.fadeOut (t : PartialTrack) : PartialTrack :=
  { t with
    prevAmplitude := t.amplitude
    amplitude := t.amplitude * (9/10)
    framesSinceLastUpdate := t.framesSinceLastUpdate + 1 }

/-- `PartialTrack::predictedFrequency`: linear prediction
`frequency + (history.back() - history[size-2])` when the history has at
least two entries, else the current frequency. -/
def PartialTrack.predictedFrequency (t : PartialTrack) : ℚ :=
  if 2 ≤ t.frequencyHistory.length then
    t.frequency +
      (t.frequencyHistory.getD (t.frequencyHistory.length - 1) 0 -
       t.frequencyHistory.getD (t.frequencyHistory.length - 2) 0)
  else t.frequency

/-- Tracker constants: MAX_FREQ_DEVIATION_RATIO = 0.1, MAX_FRAMES_DEAD = 3,
AMPLITUDE_THRESHOLD = 0.001. -/
def MAX_FRAMES_DEAD : ℕ := 3

/-- AMPLITUDE_THRESHOLD = 0.001 as an exact rational. -/
def AMPLITUDE_THRESHOLD : ℚ := 1/1000

/-- State of `PartialTrackingEngine`. -/
structure TrackerState where
  activeTracks : List PartialTrack
  matchedPeakIndices : List Bool
  nextTrackID : ℤ
  maxActiveTracks : ℤ
deriving DecidableEq, Repr, Inhabited

/-- The constructor state: no tracks, next id 0, `maxActiveTracks = 33`. -/
def initialTracker : TrackerState :=
  { activeTracks := []
    matchedPeakIndices := []
    nextTrackID := 0
    maxActiveTracks := 33 }

/-- `PartialTrackingEngine::reset`. -/
def TrackerState.reset (s : TrackerState) : TrackerState :=
  { s with activeTracks := [], matchedPeakIndices := [], nextTrackID := 0 }

/-- The inner scan of `performGreedyMatching` over the indexed peak/flag
entries, carrying `(bestMatchIndex, bestDistance)`.  Entries are
`(peak, matchedFlag, index)` in ascending index order. -/
def bestLoop (pred : ℚ) : List (SpectralPeak × Bool × ℕ) → Option ℕ × ℚ → Option ℕ × ℚ
  | [], acc => acc
  | (p, matched, i) :: rest, (best, bestDist) =>
    if matched then bestLoop pred rest (best, bestDist)
    else if |p.frequency - pred| < bestDist then
      bestLoop pred rest (some i, |p.frequency - pred|)
    else bestLoop pred rest (best, bestDist)

/-- The indexed peak/flag entry list scanned by the matcher. -/
def peakEntries (peaks : List SpectralPeak) (flags : List Bool) :
    List (SpectralPeak × Bool × ℕ) :=
  (List.range peaks.length).map fun i => (peaks.getD i default, flags.getD i false, i)

/-- One track's search in `performGreedyMatching`: initial best distance is
`predicted * MAX_FREQ_DEVIATION_RATIO` and only strict improvements are taken,
so the result index (if any) realizes the minimum distance among unmatched
peaks and that minimum is strictly below the tolerance. -/
def findBest (peaks : List SpectralPeak) (flags : List Bool) (pred : ℚ) :
    Option ℕ × ℚ :=
  bestLoop pred (peakEntries peaks flags) (none, pred * (1/10))

/-- The track loop of `performGreedyMatching`: each track in list order
searches using the current flags; on a match the track is updated from the
peak and the peak's flag is set. -/
def matchTracks (peaks : List SpectralPeak) :
    List PartialTrack → List Bool → List PartialTrack × List Bool
  | [], flags => ([], flags)
  | t :: rest, flags =>
    match (findBest peaks flags t.predictedFrequency).1 with
    | some j =>
      let r := matchTracks peaks rest (flags.set j true)
      (t.updateFromPeak (peaks.getD j default) :: r.1, r.2)
    | none =>
      let r := matchTracks peaks rest flags
      (t :: r.1, r.2)

/-- `performGreedyMatching`: flags are re-assigned to all-false, then the
track loop runs. -/
def performGreedyMatching (tracks : List PartialTrack)
    (peaks : List SpectralPeak) : List PartialTrack × List Bool :=
  matchTracks peaks tracks (List.replicate peaks.length false)

/-- Step 1 of `processFrame`: every track's unmatched counter is incremented. -/
def ageTracks (tracks : List PartialTrack) : List PartialTrack :=
  tracks.map fun t =>
    { t with framesSinceLastUpdate := t.framesSinceLastUpdate + 1 }

/-- Step 3 of `processFrame`: tracks whose counter is exactly 1 fade out. -/
def fadeStep (tracks : List PartialTrack) : List PartialTrack :=
  tracks.map fun t => if t.framesSinceLastUpdate = 1 then t.fadeOut else t

/-- Step 4 of `processFrame`: remove tracks that are inactive, unmatched for
more than MAX_FRAMES_DEAD frames, or below the amplitude threshold. -/
def retireStep (tracks : List PartialTrack) : List PartialTrack :=
  tracks.filter fun t =>
    t.isActive && decide (t.framesSinceLastUpdate ≤ MAX_FRAMES_DEAD) &&
      decide (AMPLITUDE_THRESHOLD ≤ t.amplitude)

/-- `createNewTracks`: walk the peaks in order; while the signed budget
`maxActiveTracks - |activeTracks|` remains positive, append a new track for
each unmatched peak. -/
def createLoop (nid : ℤ) (budget : ℤ) :
    List (SpectralPeak × Bool) → List PartialTrack × ℤ
  | [] => ([], nid)
  | (p, matched) :: rest =>
    if budget ≤ 0 then ([], nid)
    else if matched then createLoop nid budget rest
    else
      let r := createLoop (nid + 1) (budget - 1) rest
      (PartialTrack.fromPeak nid p :: r.1, r.2)

/-- `PartialTrackingEngine::processFrame`: age, match, fade, retire, birth. -/
def TrackerState.processFrame (s : TrackerState)
    (newPeaks : List SpectralPeak) : TrackerState :=
  let aged := ageTracks s.activeTracks
  let m := performGreedyMatching aged newPeaks
  let survivors := retireStep (fadeStep m.1)
  let b := createLoop s.nextTrackID (s.maxActiveTracks - survivors.length)
    (newPeaks.zip m.2)
  { s with
    activeTracks := survivors ++ b.1
    matchedPeakIndices := m.2
    nextTrackID := b.2 }

/-- Tracker states reachable through the engine: the freshly constructed
tracker, followed by any sequence of `processFrame` and `reset` calls (the
engine never calls `setMaxTracks`). -/
inductive ReachableTracker : TrackerState → Prop
  | init : ReachableTracker initialTracker
  | step (s : TrackerState) (peaks : List SpectralPeak) :
      ReachableTracker s → ReachableTracker (s.processFrame peaks)
  | reset (s : TrackerState) :
      ReachableTracker s → ReachableTracker s.reset

/-! ## Parameter ingress (Source/PanharmoniumEngine.cpp, setters)

IEEE-754 comparison semantics matter here (NaN compares false with
everything), so parameter values are modelled as rationals extended with NaN
and the two infinities. -/

/-- A single-precision parameter value: a finite value (exact rational), NaN,
or an infinity. -/
inductive FloatVal where
  | num (q : ℚ)
  | nan
  | posInf
  | negInf
deriving DecidableEq, Repr, Inhabited

/-- IEEE-754 less-than: false whenever either side is NaN. -/
def FloatVal.lt : FloatVal → FloatVal → Bool
  | .num a, .num b => decide (a < b)
  | .num _, .posInf => true
  | .negInf, .num _ => true
  | .negInf, .posInf => true
  | _, _ => false

/-- `juce::jlimit lo hi v = v < lo ? lo : (hi < v ? hi : v)` under IEEE
comparisons. -/
def jlimitF (lo hi v : FloatVal) : FloatVal :=
  if FloatVal.lt v lo then lo else if FloatVal.lt hi v then hi else v

/-- The value stored by every parameter setter of the engine
(`currentX.store(juce::jlimit(0.0f, 1.0f, value))`; `setSlice` stores the
same clamped value before deriving the FFT order). -/
def storedParam (v : FloatVal) : FloatVal :=
  jlimitF (.num 0) (.num 1) v

/-- What the specification asserts the setter stores: the nearest value in
[0,1] (so out-of-range and infinite values clamp; NaN has no nearest value). -/
def nearest01 : FloatVal → Option ℚ
  | .num q => some (qclamp 0 1 q)
  | .posInf => some 1
  | .negInf => some 0
  | .nan => none

/-! ## Per-sample bypass path (`PanharmoniumEngine::processSample`)

The oscillator bank, the frame processor and the output-effects chain contain
transcendental float code (sine oscillators, IIR shelves, reverb); they enter
the model as opaque state transformers, which is all claim C6 needs: the
bypass branch returns before any of them (or any engine field) is touched. -/

/-- The engine state visible to `processSample`, over an abstract oscillator
bank state `B`. -/
structure EngineState (B : Type) where
  inputFifo : List ℚ
  dryBuffer : List ℚ
  fifoPos : ℕ
  dryBufferPos : ℕ
  hopCount : ℕ
  fftSize : ℕ
  hopSize : ℕ
  bank : B
  tracker : TrackerState
  prevPartialAmplitudes : List (ℤ × ℚ)
  feedbackAmplitudes : List (ℤ × ℚ)
deriving Repr

/-- `PanharmoniumEngine::processSample`.  `lockAcquired` is the result of the
non-blocking try-acquire of `processingLock`; `bankStep` is
`oscillatorBank.processSample`, `frame` is `processFrame`, `effects` is
`applyOutputEffects` (all opaque here).  When the try-acquire fails the input
sample is returned unmodified and the state is untouched. -/
def processSample {B : Type} (bankStep : B → ℚ × B)
    (frame : EngineState B → EngineState B)
    (effects : ℚ → EngineState B → ℚ × EngineState B)
    (lockAcquired : Bool) (s : EngineState B) (x : ℚ) : ℚ × EngineState B :=
  if !lockAcquired then (x, s)
  else
    let s1 := { s with
      inputFifo := s.inputFifo.set s.fifoPos x
      dryBuffer := s.dryBuffer.set s.dryBufferPos x
      dryBufferPos := (s.dryBufferPos + 1) % s.fftSize }
    let o := bankStep s1.bank
    let s2 := { s1 with
      bank := o.2
      fifoPos := (s1.fifoPos + 1) % s1.fftSize
      hopCount := s1.hopCount + 1 }
    let s3 := if s2.hopSize ≤ s2.hopCount then frame { s2 with hopCount := 0 } else s2
    effects o.1 s3

/-- Run `processSample` over a stream: each element of `locks` tells whether
the try-acquire succeeded for the corresponding input sample. -/
def processStream {B : Type} (bankStep : B → ℚ × B)
    (frame : EngineState B → EngineState B)
    (effects : ℚ → EngineState B → ℚ × EngineState B) :
    List (Bool × ℚ) → EngineState B → List ℚ × EngineState B
  | [], s => ([], s)
  | (lk, x) :: rest, s =>
    let r := processSample bankStep frame effects lk s x
    let rr := processStream bankStep frame effects rest r.2
    (r.1 :: rr.1, rr.2)

/-! ## Modifier chain (`PanharmoniumEngine::applySpectralModifiers`)

The chain operates on a mutable copy of the tracker's active set plus the two
sparse per-partial maps (`std::map`-style: `operator[]` default-inserts 0).
The transcendental ratio computations (`std::pow`, `std::sqrt`) performed
once per frame enter the rational loop model as parameters; the frequency
window bound formulas themselves are stated over ℝ below. -/

/-- A sparse amplitude map keyed by track id (association list, most recent
binding first). -/
def AmpMap : Type := List (ℤ × ℚ)

instance : DecidableEq AmpMap :=
  inferInstanceAs (DecidableEq (List (ℤ × ℚ)))

instance : Repr AmpMap := inferInstanceAs (Repr (List (ℤ × ℚ)))

instance : Inhabited AmpMap := ⟨[]⟩

/-- Whether a key is present in the map. -/
def AmpMap.hasKey (m : AmpMap) (k : ℤ) : Bool :=
  (List.lookup k m).isSome

/-- `map[k]` as an r-value: the stored value, default-inserting 0 when the
key is absent (C++ `operator[]` semantics). -/
def AmpMap.getOrInsert0 (m : AmpMap) (k : ℤ) : ℚ × AmpMap :=
  match m.lookup k with
  | some v => (v, m)
  | none => (0, (k, 0) :: m)

/-- `map[k] = v`: overwrite or insert. -/
def AmpMap.setVal (m : AmpMap) (k : ℤ) (v : ℚ) : AmpMap :=
  match m with
  | [] => [(k, v)]
  | (k2, v2) :: rest =>
    if k2 = k then (k, v) :: rest else (k2, v2) :: AmpMap.setVal rest k v

/-- The per-frame modifier configuration: the atomic parameter snapshot plus
the ratios and window bounds computed once at the top of
`applySpectralModifiers` (their transcendental formulas are related to the
code in `windowBounds` below). -/
structure ModParams where
  blur : ℚ
  feedback : ℚ
  warp : ℚ
  warpRatio : ℚ
  freqRatio : ℚ
  octaveRatio : ℚ
  minFreq : ℚ
  maxFreq : ℚ
deriving DecidableEq, Repr, Inhabited

/-- FEEDBACK_DECAY = 0.97. -/
def FEEDBACK_DECAY : ℚ := 97/100

/-- The loop body of `applySpectralModifiers` for one track, threading the
two sparse maps `(prevPartialAmplitudes, feedbackAmplitudes)`. -/
def modifyTrack (P : ModParams) (maps : AmpMap × AmpMap) (t : PartialTrack) :
    PartialTrack × (AmpMap × AmpMap) :=
  if !t.isActive then (t, maps)
  else if t.frequency < P.minFreq ∨ P.maxFreq < t.frequency then
    ({ t with isActive := false }, maps)
  else
    let blurRes :=
      if 0 < P.blur then
        let g := maps.1.getOrInsert0 t.trackID
        let alpha := 1 - P.blur
        ((1 - alpha) * g.1 + alpha * t.amplitude, g.2)
      else (t.amplitude, maps.1)
    let fbRes :=
      if 0 < P.feedback then
        let g := maps.2.getOrInsert0 t.trackID
        let fb := g.1 * FEEDBACK_DECAY
        let m := g.2.setVal t.trackID fb
        (blurRes.1 * (1 - P.feedback) + fb * P.feedback, m)
      else (blurRes.1, maps.2)
    let freq1 := if P.warp ≠ 1/2 then t.frequency * P.warpRatio else t.frequency
    let freq2 := freq1 * (P.freqRatio * P.octaveRatio)
    let amp := fbRes.1
    ({ t with amplitude := amp, frequency := freq2 },
      (blurRes.2.setVal t.trackID amp, fbRes.2.setVal t.trackID amp))

/-- `applySpectralModifiers`: the loop over the copied track list. -/
def applySpectralModifiers (P : ModParams) :
    List PartialTrack → AmpMap × AmpMap → List PartialTrack × (AmpMap × AmpMap)
  | [], maps => ([], maps)
  | t :: rest, maps =>
    let r := modifyTrack P maps t
    let rr := applySpectralModifiers P rest r.2
    (r.1 :: rr.1, rr.2)

/-- A small concrete engine state used to exercise the bypass path. -/
def witnessEngineState : EngineState Unit :=
  { inputFifo := [0, 0, 0, 0]
    dryBuffer := [0, 0, 0, 0]
    fifoPos := 0
    dryBufferPos := 0
    hopCount := 0
    fftSize := 4
    hopSize := 1
    bank := ()
    tracker := initialTracker
    prevPartialAmplitudes := []
    feedbackAmplitudes := [] }

/-- The frequency-window bounds as the code computes them:
`centerHz = 20 * pow(20000/20, centerFreq)`,
`ratio = pow(2, (1 + bandwidth*59)/12)`,
`(centerHz / sqrt(ratio), centerHz * sqrt(ratio))`. -/
noncomputable def windowBounds (centerFreq bandwidth : ℝ) : ℝ × ℝ :=
  let centerHz : ℝ := 20 * (20000 / 20) ^ centerFreq
  let bandwidthSemitones : ℝ := 1 + bandwidth * 59
  let bandwidthRatio : ℝ := 2 ^ (bandwidthSemitones / 12)
  (centerHz / Real.sqrt bandwidthRatio, centerHz * Real.sqrt bandwidthRatio)

/-- The frequency-window bounds exactly as the specification words them:
`center_hz = 20 · (20000/20)^center_freq`, `bw_semitones = 1 + 59·bandwidth`,
`ratio = 2^(bw_semitones/12)`,
`[f_min, f_max] = [center_hz/√ratio, center_hz·√ratio]`. -/
noncomputable def specWindowBounds (centerFreq bandwidth : ℝ) : ℝ × ℝ :=
  let centerHz : ℝ := 20 * (20000 / 20) ^ centerFreq
  let bwSemitones : ℝ := 1 + 59 * bandwidth
  let ratio : ℝ := 2 ^ (bwSemitones / 12)
  (centerHz / Real.sqrt ratio, centerHz * Real.sqrt ratio)

/-- Read a key with default 0, without inserting (the value `operator[]`
yields for reading). -/
def AmpMap.getD0 (m : AmpMap) (k : ℤ) : ℚ :=
  (List.lookup k m).getD 0

/-- Blur exactly as the specification words it (4.4.2): with alpha = 1 - blur,
the new amplitude is (1 - alpha) * prev_amp + alpha * amp; blur = 0 is the
identity, blur = 1 freezes at the previous value. -/
def specBlurAmp (blur prevAmp amp : ℚ) : ℚ :=
  (1 - (1 - blur)) * prevAmp + (1 - blur) * amp

/-- Feedback exactly as the specification words it (4.4.3): the per-partial
feedback state decays by 0.97 and the amplitude becomes
amp * (1 - feedback) + fb * feedback. -/
def specFeedbackAmp (feedback fbPrev amp : ℚ) : ℚ :=
  amp * (1 - feedback) + (fbPrev * FEEDBACK_DECAY) * feedback

/-- The frequency modifiers exactly as the specification orders them
(4.4.4 warp, then 4.4.5 fine shift, then 4.4.6 octave), each a multiplicative
ratio. -/
def specFreqPipeline (warpRatio freqRatio octaveRatio f : ℚ) : ℚ :=
  ((f * warpRatio) * freqRatio) * octaveRatio

/-- A concrete modifier configuration (neutral settings, window [50, 500])
used as a witness input. -/
def witnessModParams : ModParams :=
  { blur := 0
    feedback := 0
    warp := 1/2
    warpRatio := 1
    freqRatio := 1
    octaveRatio := 1
    minFreq := 50
    maxFreq := 500 }

/-! ## Characterization artifacts for the greedy matcher -/

/-- Apply a matching choice to a track: `some j` updates the track from peak
`j`, `none` leaves it alone. -/
def applyChoice (peaks : List SpectralPeak) (t : PartialTrack) :
    Option ℕ → PartialTrack
  | some j => t.updateFromPeak (peaks.getD j default)
  | none => t

/-- Replay a list of matching choices onto the matched-peak flag vector. -/
def setFlags (flags : List Bool) (cs : List (Option ℕ)) : List Bool :=
  cs.foldl (fun fl c => match c with | some j => fl.set j true | none => fl) flags

/-- The specification of one track's greedy decision, relative to the flag
vector `fl` current when the track is scanned: `some j` means peak `j` was
an unmatched peak at minimum distance from the predicted frequency, with that
distance strictly inside the 10% tolerance; `none` means every unmatched peak
was at least the tolerance away. -/
def choiceCondition (peaks : List SpectralPeak) (fl : List Bool)
    (t : PartialTrack) : Option ℕ → Prop
  | some j => j < peaks.length ∧ fl.getD j false = false ∧
      |(peaks.getD j default).frequency - t.predictedFrequency| <
        t.predictedFrequency * (1/10) ∧
      ∀ i, i < peaks.length → fl.getD i false = false →
        |(peaks.getD j default).frequency - t.predictedFrequency| ≤
          |(peaks.getD i default).frequency - t.predictedFrequency|
  | none => ∀ i, i < peaks.length → fl.getD i false = false →
      t.predictedFrequency * (1/10) ≤
        |(peaks.getD i default).frequency - t.predictedFrequency|

/-- Consistency of a track's frequency history with its current frequency:
inside the tracker the newest history entry always equals `frequency`. -/
def PartialTrack.histConsistent (t : PartialTrack) : Prop :=
  t.frequencyHistory = [] ∨
    t.frequencyHistory.getD (t.frequencyHistory.length - 1) 0 = t.frequency

instance (t : PartialTrack) : Decidable t.histConsistent := by
  unfold PartialTrack.histConsistent; infer_instance

/-- The predictor exactly as the specification words it:
`predicted = last + (last - prev_last)` when the history has at least two
entries, else the current frequency. -/
def specPredictedFrequency (t : PartialTrack) : ℚ :=
  if 2 ≤ t.frequencyHistory.length then
    let last := t.frequencyHistory.getD (t.frequencyHistory.length - 1) 0
    let prevLast := t.frequencyHistory.getD (t.frequencyHistory.length - 2) 0
    last + (last - prevLast)
  else t.frequency

/-- A concrete track (history [100, 105], so the predictor yields 110) used
as a witness input. -/
def witnessTrack : PartialTrack :=
  { trackID := 0
    frequency := 105
    amplitude := 1
    phase := 0
    prevFrequency := 100
    prevAmplitude := 1
    framesSinceCreation := 2
    framesSinceLastUpdate := 0
    isActive := true
    frequencyHistory := [100, 105]
    amplitudeHistory := [1, 1] }

/-- Two concrete peaks used as a witness input frame. -/
def witnessPeaks : List SpectralPeak :=
  [{ frequency := 112, magnitude := 3, phase := 0, binIndex := 4 },
   { frequency := 150, magnitude := 2, phase := 0, binIndex := 6 }]

/-! ## Tracker lemmas -/

theorem matchTracks_length (peaks : List SpectralPeak) :
    ∀ (tracks : List PartialTrack) (flags : List Bool),
      (matchTracks peaks tracks flags).1.length = tracks.length := by
  intro tracks
  induction tracks with
  | nil => intro flags; rfl
  | cons t rest ih =>
    intro flags
    simp only [matchTracks]
    cases (findBest peaks flags t.predictedFrequency).1 with
    | some j => simp [ih]
    | none => simp [ih]

theorem createLoop_length :
    ∀ (l : List (SpectralPeak × Bool)) (nid budget : ℤ),
      ((createLoop nid budget l).1.length : ℤ) ≤ max budget 0 := by
  intro l
  induction l with
  | nil => intro nid budget; simp [createLoop, le_max_right]
  | cons e rest ih =>
    intro nid budget
    obtain ⟨p, matched⟩ := e
    simp only [createLoop]
    by_cases hb : budget ≤ 0
    · simp [hb, le_max_right]
    · rw [if_neg hb]
      cases matched with
      | true => simpa using ih nid budget
      | false =>
        simp only [Bool.false_eq_true, if_false, List.length_cons]
        have := ih (nid + 1) (budget - 1)
        push_cast
        omega

theorem createLoop_newborn :
    ∀ (l : List (SpectralPeak × Bool)) (nid budget : ℤ) (t : PartialTrack),
      t ∈ (createLoop nid budget l).1 →
      t.framesSinceCreation = 1 ∧ t.framesSinceLastUpdate = 0 := by
  intro l
  induction l with
  | nil => intro nid budget t ht; simp [createLoop] at ht
  | cons e rest ih =>
    intro nid budget t ht
    obtain ⟨p, matched⟩ := e
    simp only [createLoop] at ht
    by_cases hb : budget ≤ 0
    · simp [hb] at ht
    · rw [if_neg hb] at ht
      cases matched with
      | true => exact ih nid budget t (by simpa using ht)
      | false =>
        simp only [Bool.false_eq_true, if_false, List.mem_cons] at ht
        rcases ht with h | h
        · subst h; exact ⟨rfl, rfl⟩
        · exact ih (nid + 1) (budget - 1) t h

theorem mem_retireStep {t : PartialTrack} {l : List PartialTrack} :
    t ∈ retireStep l ↔
      t ∈ l ∧ t.isActive = true ∧
        t.framesSinceLastUpdate ≤ MAX_FRAMES_DEAD ∧
        AMPLITUDE_THRESHOLD ≤ t.amplitude := by
  simp [retireStep, List.mem_filter, and_assoc]

theorem processFrame_length_le {s : TrackerState}
    (hmax : s.maxActiveTracks = 33) (hlen : s.activeTracks.length ≤ 33)
    (peaks : List SpectralPeak) :
    (s.processFrame peaks).activeTracks.length ≤ 33 := by
  simp only [TrackerState.processFrame, List.length_append, hmax]
  set survivors :=
    retireStep (fadeStep (performGreedyMatching (ageTracks s.activeTracks) peaks).1)
    with hsurv
  have h1 : survivors.length ≤ s.activeTracks.length := by
    calc survivors.length
        ≤ (fadeStep (performGreedyMatching (ageTracks s.activeTracks) peaks).1).length :=
          List.length_filter_le _ _
      _ = (performGreedyMatching (ageTracks s.activeTracks) peaks).1.length :=
          List.length_map _ _
      _ = (ageTracks s.activeTracks).length := matchTracks_length _ _ _
      _ = s.activeTracks.length := List.length_map _ _
  have h2 := createLoop_length (peaks.zip
    (performGreedyMatching (ageTracks s.activeTracks) peaks).2)
    s.nextTrackID (s.maxActiveTracks - survivors.length)
  rw [hmax] at h2
  rcases max_cases ((33 : ℤ) - (survivors.length : ℤ)) 0 with ⟨heq, _⟩ | ⟨heq, _⟩ <;>
    rw [heq] at h2 <;> omega

/-- Every engine-reachable tracker state has at most 33 active tracks and an
unchanged `maxActiveTracks`. -/
theorem reachable_tracker_inv {s : TrackerState} (h : ReachableTracker s) :
    s.activeTracks.length ≤ 33 ∧ s.maxActiveTracks = 33 := by
  induction h with
  | init => exact ⟨by simp [initialTracker], rfl⟩
  | step s peaks _ ih =>
    exact ⟨processFrame_length_le ih.2 ih.1 peaks, ih.2⟩
  | reset s _ ih => exact ⟨by simp [TrackerState.reset], ih.2⟩

/-! ## Claim C1: tracker invariants after `processFrame` -/

/-- C1 counterexample: births happen after the retire step, and
`createNewTracks` copies the peak magnitude into the new track without
checking AMPLITUDE_THRESHOLD.  Processing one frame holding a single peak of
magnitude 1/2000 from the freshly constructed (reachable) tracker leaves an
active track with amplitude 1/2000 < 1/1000. -/
theorem processFrame_newborn_below_threshold :
    ReachableTracker initialTracker ∧
    ∃ t ∈ (initialTracker.processFrame
        [{ frequency := 100, magnitude := 1/2000, phase := 0, binIndex := 5 }]).activeTracks,
      t.amplitude < AMPLITUDE_THRESHOLD := by
  refine ⟨ReachableTracker.init, ?_⟩
  have hlist : (initialTracker.processFrame
      [{ frequency := 100, magnitude := 1/2000, phase := 0, binIndex := 5 }]).activeTracks =
      [PartialTrack.fromPeak 0
        { frequency := 100, magnitude := 1/2000, phase := 0, binIndex := 5 }] := rfl
  rw [hlist]
  refine ⟨_, List.mem_singleton_self _, ?_⟩
  norm_num [PartialTrack.fromPeak, AMPLITUDE_THRESHOLD]

/-- C1 amended: after every `processFrame` call on a reachable tracker state,
the active set holds at most 33 tracks, every track has
`framesSinceLastUpdate ∈ [0, MAX_FRAMES_DEAD]`, and every track has
`amplitude ≥ AMPLITUDE_THRESHOLD` except possibly tracks born in this frame's
birth step (recognizable by `framesSinceCreation = 1` and
`framesSinceLastUpdate = 0`), whose amplitude is their peak's magnitude and
may lie below the threshold. -/
theorem processFrame_invariants_amended (s : TrackerState)
    (peaks : List SpectralPeak) (hs : ReachableTracker s) :
    (s.processFrame peaks).activeTracks.length ≤ 33 ∧
    ∀ t ∈ (s.processFrame peaks).activeTracks,
      t.framesSinceLastUpdate ≤ MAX_FRAMES_DEAD ∧
      (AMPLITUDE_THRESHOLD ≤ t.amplitude ∨
        (t.framesSinceCreation = 1 ∧ t.framesSinceLastUpdate = 0)) := by
  obtain ⟨hlen, hmax⟩ := reachable_tracker_inv hs
  refine ⟨processFrame_length_le hmax hlen peaks, ?_⟩
  intro t ht
  simp only [TrackerState.processFrame, List.mem_append] at ht
  rcases ht with ht | ht
  · rcases mem_retireStep.mp ht with ⟨_, _, hfsu, hamp⟩
    exact ⟨hfsu, Or.inl hamp⟩
  · rcases createLoop_newborn _ _ _ _ ht with ⟨hc, hu⟩
    exact ⟨by simp [hu, MAX_FRAMES_DEAD], Or.inr ⟨hc, hu⟩⟩

/-- C1 amended witness: the amended invariant evaluated on the initial
tracker and a concrete two-peak frame (one peak below threshold, one above). -/
theorem processFrame_invariants_amended_witness :
    ReachableTracker initialTracker ∧
    ((initialTracker.processFrame
        [{ frequency := 100, magnitude := 1/2000, phase := 0, binIndex := 5 },
         { frequency := 200, magnitude := 1, phase := 0, binIndex := 9 }]).activeTracks.length ≤ 33 ∧
      ∀ t ∈ (initialTracker.processFrame
        [{ frequency := 100, magnitude := 1/2000, phase := 0, binIndex := 5 },
         { frequency := 200, magnitude := 1, phase := 0, binIndex := 9 }]).activeTracks,
        t.framesSinceLastUpdate ≤ MAX_FRAMES_DEAD ∧
        (AMPLITUDE_THRESHOLD ≤ t.amplitude ∨
          (t.framesSinceCreation = 1 ∧ t.framesSinceLastUpdate = 0))) :=
  ⟨ReachableTracker.init,
    processFrame_invariants_amended initialTracker _ ReachableTracker.init⟩

/-! ## Claim C5: parameter clamping at ingress -/

/-- C5 counterexample: the claim states that for every input value,
including NaN, the observable engine state is indistinguishable from setting
the parameter to the nearest value in [0,1].  But `juce::jlimit` compares
with IEEE semantics, both comparisons are false for NaN, and the setter
stores NaN itself: the stored parameter equals no value of [0,1] (indeed no
finite value at all), and NaN has no nearest value in [0,1]. -/
theorem setter_nan_not_clamped :
    storedParam FloatVal.nan = FloatVal.nan ∧
    nearest01 FloatVal.nan = none ∧
    ∀ q : ℚ, storedParam FloatVal.nan ≠ FloatVal.num q := by
  refine ⟨rfl, rfl, ?_⟩
  intro q h
  exact FloatVal.noConfusion h

/-- C5 amended: every engine parameter setter stores
`jlimit(0.0f, 1.0f, value)`; for every non-NaN input (finite of either sign,
+infinity or -infinity) this is exactly the nearest value in [0,1], while a
NaN input is stored unchanged as NaN. -/
theorem setter_clamps_amended (v : FloatVal) :
    storedParam v = match v with
      | .num q => .num (qclamp 0 1 q)
      | .posInf => .num 1
      | .negInf => .num 0
      | .nan => .nan := by
  cases v with
  | num q =>
    simp only [storedParam, jlimitF, FloatVal.lt, qclamp]
    rcases lt_trichotomy q 0 with h | h | h
    · simp [h, not_lt.mpr (le_of_lt (lt_of_lt_of_le h zero_le_one))]
    · subst h; norm_num
    · rcases le_or_lt q 1 with h1 | h1
      · simp [not_lt.mpr (le_of_lt h), not_lt.mpr h1]
      · simp [not_lt.mpr (le_of_lt h), h1, not_lt.mpr (le_of_lt h1)]
  | nan => rfl
  | posInf => rfl
  | negInf => rfl

/-! ## Claim C6: bypass when the engine guard is contended -/

/-- C6: when the non-blocking try-acquire of the engine guard fails,
`processSample` returns the input sample unmodified and leaves the whole
engine state untouched; consequently, over any stream whose samples all see
the guard held, every output equals its input and the final state is the
initial one.  This holds for arbitrary behavior of the oscillator bank, the
frame processor and the output-effects chain. -/
theorem processSample_bypass {B : Type} (bankStep : B → ℚ × B)
    (frame : EngineState B → EngineState B)
    (effects : ℚ → EngineState B → ℚ × EngineState B)
    (s : EngineState B) (x : ℚ) (entries : List (Bool × ℚ))
    (hheld : ∀ e ∈ entries, e.1 = false) :
    processSample bankStep frame effects false s x = (x, s) ∧
    processStream bankStep frame effects entries s =
      (entries.map Prod.snd, s) := by
  constructor
  · rfl
  · induction entries generalizing s with
    | nil => rfl
    | cons e rest ih =>
      have he : e.1 = false := hheld e (List.mem_cons_self e rest)
      have hrest : ∀ e2 ∈ rest, e2.1 = false := fun e2 h2 =>
        hheld e2 (List.mem_cons_of_mem e h2)
      obtain ⟨lk, xv⟩ := e
      simp only at he
      subst he
      simp [processStream, processSample, ih s hrest]

/-- C6 witness: a two-sample stream processed with the guard held, on a
concrete engine state with a unit bank. -/
theorem processSample_bypass_witness :
    (∀ e ∈ [(false, (3 : ℚ)), (false, 5)], e.1 = false) ∧
    processSample (fun b : Unit => ((0 : ℚ), b)) id (fun q s => (q, s))
        false witnessEngineState 3 = (3, witnessEngineState) ∧
    processStream (fun b : Unit => ((0 : ℚ), b)) id (fun q s => (q, s))
        [(false, 3), (false, 5)] witnessEngineState =
      ([3, 5], witnessEngineState) := by
  refine ⟨by decide, ?_⟩
  have h := processSample_bypass (fun b : Unit => ((0 : ℚ), b)) id
    (fun q s => (q, s)) witnessEngineState 3 [(false, 3), (false, 5)]
    (by decide)
  exact ⟨h.1, h.2⟩

/-! ## Greedy matcher characterization -/

theorem bestLoop_spec (pred : ℚ) :
    ∀ (L : List (SpectralPeak × Bool × ℕ)) (b0 : Option ℕ) (d0 : ℚ),
      (bestLoop pred L (b0, d0)).2 ≤ d0 ∧
      (∀ e ∈ L, e.2.1 = false →
        (bestLoop pred L (b0, d0)).2 ≤ |e.1.frequency - pred|) ∧
      ((bestLoop pred L (b0, d0)).1 = b0 ∧ (bestLoop pred L (b0, d0)).2 = d0 ∨
        ∃ e ∈ L, e.2.1 = false ∧
          (bestLoop pred L (b0, d0)).1 = some e.2.2 ∧
          (bestLoop pred L (b0, d0)).2 = |e.1.frequency - pred| ∧
          (bestLoop pred L (b0, d0)).2 < d0) := by
  intro L
  induction L with
  | nil =>
    intro b0 d0
    exact ⟨le_refl _, by intro e he; simp at he, Or.inl ⟨rfl, rfl⟩⟩
  | cons e rest ih =>
    intro b0 d0
    obtain ⟨p, m, i⟩ := e
    cases m with
    | true =>
      have h := ih b0 d0
      refine ⟨h.1, ?_, ?_⟩
      · intro e2 he2 hf
        rcases List.mem_cons.mp he2 with he2 | he2
        · subst he2; simp at hf
        · exact h.2.1 e2 he2 hf
      · rcases h.2.2 with hcase | ⟨e2, he2, hrest⟩
        · exact Or.inl hcase
        · exact Or.inr ⟨e2, List.mem_cons_of_mem _ he2, hrest⟩
    | false =>
      by_cases hd : |p.frequency - pred| < d0
      · have hstep : bestLoop pred ((p, false, i) :: rest) (b0, d0) =
            bestLoop pred rest (some i, |p.frequency - pred|) := by
          simp [bestLoop, hd]
        have h := ih (some i) (|p.frequency - pred|)
        rw [hstep]
        refine ⟨le_of_lt (lt_of_le_of_lt h.1 hd), ?_, ?_⟩
        · intro e2 he2 hf
          rcases List.mem_cons.mp he2 with he2 | he2
          · subst he2; exact h.1
          · exact h.2.1 e2 he2 hf
        · rcases h.2.2 with ⟨hb, hdist⟩ | ⟨e2, he2, hf2, hb2, hd2, hlt2⟩
          · exact Or.inr ⟨(p, false, i), List.mem_cons_self _ _, rfl, hb,
              hdist, by rw [hdist]; exact hd⟩
          · exact Or.inr ⟨e2, List.mem_cons_of_mem _ he2, hf2, hb2, hd2,
              lt_trans hlt2 hd⟩
      · have hstep : bestLoop pred ((p, false, i) :: rest) (b0, d0) =
            bestLoop pred rest (b0, d0) := by
          simp [bestLoop, hd]
        have h := ih b0 d0
        rw [hstep]
        refine ⟨h.1, ?_, ?_⟩
        · intro e2 he2 hf
          rcases List.mem_cons.mp he2 with he2 | he2
          · subst he2
            exact le_trans h.1 (not_lt.mp hd)
          · exact h.2.1 e2 he2 hf
        · rcases h.2.2 with hcase | ⟨e2, he2, hrest⟩
          · exact Or.inl hcase
          · exact Or.inr ⟨e2, List.mem_cons_of_mem _ he2, hrest⟩

theorem mem_peakEntries {peaks : List SpectralPeak} {flags : List Bool}
    {e : SpectralPeak × Bool × ℕ} :
    e ∈ peakEntries peaks flags ↔
      ∃ i, i < peaks.length ∧
        e = (peaks.getD i default, flags.getD i false, i) := by
  simp only [peakEntries, List.mem_map, List.mem_range]
  constructor
  · rintro ⟨i, hi, rfl⟩; exact ⟨i, hi, rfl⟩
  · rintro ⟨i, hi, rfl⟩; exact ⟨i, hi, rfl⟩

theorem findBest_some {peaks : List SpectralPeak} {flags : List Bool}
    {pred : ℚ} {j : ℕ} (hj : (findBest peaks flags pred).1 = some j) :
    j < peaks.length ∧ flags.getD j false = false ∧
      |(peaks.getD j default).frequency - pred| < pred * (1/10) ∧
      ∀ i, i < peaks.length → flags.getD i false = false →
        |(peaks.getD j default).frequency - pred| ≤
          |(peaks.getD i default).frequency - pred| := by
  have h := bestLoop_spec pred (peakEntries peaks flags) none (pred * (1/10))
  rcases h.2.2 with ⟨hb, _⟩ | ⟨e, he, hf, hb, hd, hlt⟩
  · rw [findBest] at hj; rw [hj] at hb; exact absurd hb (by simp)
  · rcases mem_peakEntries.mp he with ⟨i, hi, rfl⟩
    rw [findBest] at hj
    rw [hj] at hb
    have hij : j = i := by
      simpa using Option.some.inj hb
    subst hij
    refine ⟨hi, hf, ?_, ?_⟩
    · rw [← hd]; exact hlt
    · intro i2 hi2 hf2
      rw [← hd]
      exact h.2.1 (peaks.getD i2 default, flags.getD i2 false, i2)
        (mem_peakEntries.mpr ⟨i2, hi2, rfl⟩) hf2

theorem findBest_none {peaks : List SpectralPeak} {flags : List Bool}
    {pred : ℚ} (hn : (findBest peaks flags pred).1 = none) :
    ∀ i, i < peaks.length → flags.getD i false = false →
      pred * (1/10) ≤ |(peaks.getD i default).frequency - pred| := by
  have h := bestLoop_spec pred (peakEntries peaks flags) none (pred * (1/10))
  rcases h.2.2 with ⟨_, hdist⟩ | ⟨e, he, hf, hb, _, _⟩
  · intro i hi hfi
    rw [← hdist]
    exact h.2.1 (peaks.getD i default, flags.getD i false, i)
      (mem_peakEntries.mpr ⟨i, hi, rfl⟩) hfi
  · rw [findBest] at hn; rw [hn] at hb; exact absurd hb (by simp)

theorem setFlags_cons (flags : List Bool) (c : Option ℕ) (cs : List (Option ℕ)) :
    setFlags flags (c :: cs) =
      setFlags (match c with | some j => flags.set j true | none => flags) cs := rfl

theorem setFlags_append (flags : List Bool) (cs1 cs2 : List (Option ℕ)) :
    setFlags flags (cs1 ++ cs2) = setFlags (setFlags flags cs1) cs2 :=
  List.foldl_append _ _ _ _

theorem setFlags_length (flags : List Bool) :
    ∀ cs : List (Option ℕ), (setFlags flags cs).length = flags.length := by
  intro cs
  induction cs generalizing flags with
  | nil => rfl
  | cons c rest ih =>
    cases c with
    | some j => rw [setFlags_cons]; simpa using ih (flags.set j true)
    | none => rw [setFlags_cons]; exact ih flags

theorem getD_set_true {flags : List Bool} {j i : ℕ}
    (h : flags.getD i false = true) : (flags.set j true).getD i false = true := by
  rw [List.getD_eq_getElem?_getD] at h ⊢
  have hlen : i < flags.length := by
    by_contra hc
    rw [List.getElem?_eq_none (le_of_not_lt hc)] at h
    simp at h
  rw [List.getElem?_set]
  by_cases hji : j = i
  · subst hji; simp [hlen]
  · rw [if_neg hji]; exact h

theorem setFlags_mono {flags : List Bool} {i : ℕ}
    (h : flags.getD i false = true) :
    ∀ cs : List (Option ℕ), (setFlags flags cs).getD i false = true := by
  intro cs
  induction cs generalizing flags with
  | nil => exact h
  | cons c rest ih =>
    cases c with
    | some j => rw [setFlags_cons]; exact ih (getD_set_true h)
    | none => rw [setFlags_cons]; exact ih h

theorem getD_set_self {flags : List Bool} {j : ℕ} (hl : j < flags.length) :
    (flags.set j true).getD j false = true := by
  rw [List.getD_eq_getElem?_getD, List.getElem?_set, if_pos rfl, if_pos hl]
  rfl

/-- The main characterization of the track loop of `performGreedyMatching`:
there is a list of per-track choices that reproduces the output tracks and
flags, and every choice is greedy-optimal relative to the flag vector current
when its track was scanned. -/
theorem matchTracks_spec (peaks : List SpectralPeak) :
    ∀ (tracks : List PartialTrack) (flags : List Bool),
      ∃ cs : List (Option ℕ),
        cs.length = tracks.length ∧
        (matchTracks peaks tracks flags).1 =
          List.zipWith (applyChoice peaks) tracks cs ∧
        (matchTracks peaks tracks flags).2 = setFlags flags cs ∧
        ∀ k, k < tracks.length →
          choiceCondition peaks (setFlags flags (cs.take k))
            (tracks.getD k default) (cs.getD k none) := by
  intro tracks
  induction tracks with
  | nil =>
    intro flags
    exact ⟨[], rfl, rfl, rfl, by intro k hk; simp at hk⟩
  | cons t rest ih =>
    intro flags
    cases hfb : (findBest peaks flags t.predictedFrequency).1 with
    | some j =>
      obtain ⟨cs, hlen, hout, hflags, hcond⟩ := ih (flags.set j true)
      refine ⟨some j :: cs, by simp [hlen], ?_, ?_, ?_⟩
      · simp only [matchTracks, hfb, List.zipWith_cons_cons]
        rw [hout]
        rfl
      · simp only [matchTracks, hfb]
        rw [hflags, setFlags_cons]
      · intro k hk
        cases k with
        | zero =>
          simp only [List.take_zero, List.getD, List.getElem?_cons_zero]
          have h := findBest_some hfb
          exact ⟨h.1, h.2.1, h.2.2.1, h.2.2.2⟩
        | succ k2 =>
          have hk2 : k2 < rest.length := by simpa using hk
          have := hcond k2 hk2
          simpa [setFlags_cons] using this
    | none =>
      obtain ⟨cs, hlen, hout, hflags, hcond⟩ := ih flags
      refine ⟨none :: cs, by simp [hlen], ?_, ?_, ?_⟩
      · simp only [matchTracks, hfb, List.zipWith_cons_cons]
        rw [hout]
        rfl
      · simp only [matchTracks, hfb]
        rw [hflags, setFlags_cons]
      · intro k hk
        cases k with
        | zero =>
          simp only [List.take_zero, List.getD, List.getElem?_cons_zero]
          exact findBest_none hfb
        | succ k2 =>
          have hk2 : k2 < rest.length := by simpa using hk
          have := hcond k2 hk2
          simpa [setFlags_cons] using this

theorem claimed_flag_true {flags0 : List Bool} {cs : List (Option ℕ)} {k j : ℕ}
    (hj : j < flags0.length) (hc : cs.getD k none = some j) :
    ∀ n, k < n → (setFlags flags0 (cs.take n)).getD j false = true := by
  intro n hkn
  have hsplit : cs.take n = cs.take (k+1) ++ (cs.drop (k+1)).take (n - (k+1)) := by
    have hn : n = (k+1) + (n - (k+1)) := by omega
    rw [hn, List.take_add]
    congr 2
    omega
  have hgetk : cs[k]? = some (some j) := by
    rw [List.getD_eq_getElem?_getD] at hc
    cases hx : cs[k]? with
    | none => rw [hx] at hc; simp at hc
    | some c => rw [hx] at hc; simp only [Option.getD_some] at hc; rw [hc]
  have hsucc : cs.take (k+1) = cs.take k ++ [some j] := by
    rw [List.take_succ, hgetk]
    rfl
  rw [hsplit, setFlags_append, hsucc, setFlags_append]
  apply setFlags_mono
  have hform : setFlags (setFlags flags0 (cs.take k)) [some j] =
      (setFlags flags0 (cs.take k)).set j true := rfl
  rw [hform]
  exact getD_set_self (by rw [setFlags_length]; exact hj)

theorem choices_no_double_claim {peaks : List SpectralPeak}
    {tracks : List PartialTrack} {cs : List (Option ℕ)}
    (hcond : ∀ k, k < tracks.length →
      choiceCondition peaks (setFlags (List.replicate peaks.length false) (cs.take k))
        (tracks.getD k default) (cs.getD k none)) :
    ∀ k1 k2 j, k1 < tracks.length → k2 < tracks.length →
      cs.getD k1 none = some j → cs.getD k2 none = some j → k1 = k2 := by
  have key : ∀ ka kb j, ka < kb → ka < tracks.length → kb < tracks.length →
      cs.getD ka none = some j → cs.getD kb none = some j → False := by
    intro ka kb j hab ha hb hca hcb
    have hconda := hcond ka ha
    rw [hca] at hconda
    have hja : j < peaks.length := hconda.1
    have hjf : j < (List.replicate peaks.length false).length := by
      simpa using hja
    have htrue := claimed_flag_true hjf hca kb hab
    have hcondb := hcond kb hb
    rw [hcb] at hcondb
    have hfalse := hcondb.2.1
    rw [htrue] at hfalse
    exact Bool.noConfusion hfalse
  intro k1 k2 j h1 h2 hc1 hc2
  rcases Nat.lt_trichotomy k1 k2 with h | h | h
  · exact absurd (key k1 k2 j h h1 h2 hc1 hc2) not_false
  · exact h
  · exact absurd (key k2 k1 j h h2 h1 hc2 hc1) not_false

/-! ## Claim C3: the per-frame greedy match -/

/-- C3: in each frame's greedy match, every track (in active-list order)
predicts `last + (last - prev_last)` when its history has at least two
entries (the newest history entry equals the current frequency inside the
tracker) and its current frequency otherwise; there is a per-track choice
assignment that reproduces the matcher's output, in which every matched
track took an unmatched peak of minimum distance to its prediction with that
distance strictly below 0.10 times the prediction, every unmatched track had
no unmatched peak strictly inside the tolerance, and no peak index is chosen
by two tracks. -/
theorem greedyMatching_spec (tracks : List PartialTrack)
    (peaks : List SpectralPeak)
    (hhist : ∀ t ∈ tracks, t.histConsistent) :
    (∀ t ∈ tracks, t.predictedFrequency = specPredictedFrequency t) ∧
    ∃ cs : List (Option ℕ),
      cs.length = tracks.length ∧
      (performGreedyMatching tracks peaks).1 =
        List.zipWith (applyChoice peaks) tracks cs ∧
      (∀ k, k < tracks.length →
        choiceCondition peaks
          (setFlags (List.replicate peaks.length false) (cs.take k))
          (tracks.getD k default) (cs.getD k none)) ∧
      ∀ k1 k2 j, k1 < tracks.length → k2 < tracks.length →
        cs.getD k1 none = some j → cs.getD k2 none = some j → k1 = k2 := by
  constructor
  · intro t ht
    rcases hhist t ht with hnil | hlast
    · rw [PartialTrack.predictedFrequency, specPredictedFrequency]
      simp [hnil]
    · rw [PartialTrack.predictedFrequency, specPredictedFrequency]
      by_cases h2 : 2 ≤ t.frequencyHistory.length
      · rw [if_pos h2, if_pos h2, hlast]
      · rw [if_neg h2, if_neg h2]
  · obtain ⟨cs, hlen, hout, _, hcond⟩ :=
      matchTracks_spec peaks tracks (List.replicate peaks.length false)
    exact ⟨cs, hlen, hout, hcond, choices_no_double_claim hcond⟩

/-- C3 witness: a concrete one-track, two-peak frame.  The track's history is
[100, 105], so it predicts 110; the peak at 112 (distance 2 < 11) wins over
the peak at 150. -/
theorem greedyMatching_spec_witness :
    (∀ t ∈ [witnessTrack], t.histConsistent) ∧
    ((∀ t ∈ [witnessTrack], t.predictedFrequency = specPredictedFrequency t) ∧
    ∃ cs : List (Option ℕ),
      cs.length = [witnessTrack].length ∧
      (performGreedyMatching [witnessTrack] witnessPeaks).1 =
        List.zipWith (applyChoice witnessPeaks) [witnessTrack] cs ∧
      (∀ k, k < [witnessTrack].length →
        choiceCondition witnessPeaks
          (setFlags (List.replicate witnessPeaks.length false) (cs.take k))
          ([witnessTrack].getD k default) (cs.getD k none)) ∧
      ∀ k1 k2 j, k1 < [witnessTrack].length → k2 < [witnessTrack].length →
        cs.getD k1 none = some j → cs.getD k2 none = some j → k1 = k2) := by
  have hh : ∀ t ∈ [witnessTrack], t.histConsistent := by
    intro t ht
    rw [List.mem_singleton] at ht
    subst ht
    exact Or.inr rfl
  exact ⟨hh, greedyMatching_spec [witnessTrack] witnessPeaks hh⟩

/-! ## Claim C2: dynamics of the unmatched-frame counter -/

/-- C2 counterexample: a track matched in frame 1 and unmatched in frame 2
ends frame 2 with `framesSinceLastUpdate = 2`, not 1: the aging step
increments the counter and `fadeOut` (which fires exactly when the counter
is 1 after matching) increments it again. -/
theorem one_unmatched_frame_counter_is_two :
    ((initialTracker.processFrame
        [{ frequency := 100, magnitude := 1, phase := 0, binIndex := 5 }]).processFrame
          []).activeTracks.map PartialTrack.framesSinceLastUpdate = [2] ∧
    ((initialTracker.processFrame
        [{ frequency := 100, magnitude := 1, phase := 0, binIndex := 5 }]).processFrame
          []).activeTracks.map PartialTrack.framesSinceLastUpdate ≠ [1] := by
  have h : ((initialTracker.processFrame
      [{ frequency := 100, magnitude := 1, phase := 0, binIndex := 5 }]).processFrame
        []).activeTracks.map PartialTrack.framesSinceLastUpdate = [2] := by
    norm_num [TrackerState.processFrame, ageTracks, performGreedyMatching,
      matchTracks, findBest, peakEntries, bestLoop, fadeStep, retireStep,
      createLoop, PartialTrack.fadeOut, PartialTrack.predictedFrequency,
      MAX_FRAMES_DEAD, AMPLITUDE_THRESHOLD, initialTracker,
      PartialTrack.fromPeak, List.filter]
  exact ⟨h, by rw [h]; simp⟩

/-- C2 amended: `framesSinceLastUpdate` is 0 immediately after a frame in
which the track was matched.  On the first unmatched frame after a match the
counter jumps from 0 to 2 (the aging step and the fade-out step each
increment it); every further consecutive unmatched frame increases it by
exactly 1.  Stated over the match-and-fade stages of `processFrame`, via the
choice assignment of the greedy matcher. -/
theorem framesSinceLastUpdate_dynamics (tracks : List PartialTrack)
    (peaks : List SpectralPeak) :
    ∃ cs : List (Option ℕ),
      cs.length = tracks.length ∧
      (performGreedyMatching (ageTracks tracks) peaks).1 =
        List.zipWith (applyChoice peaks) (ageTracks tracks) cs ∧
      ∀ k, k < tracks.length →
        (cs.getD k none ≠ none →
          ((fadeStep (performGreedyMatching (ageTracks tracks) peaks).1).getD
            k default).framesSinceLastUpdate = 0) ∧
        (cs.getD k none = none →
          ((fadeStep (performGreedyMatching (ageTracks tracks) peaks).1).getD
            k default).framesSinceLastUpdate =
            if (tracks.getD k default).framesSinceLastUpdate = 0 then 2
            else (tracks.getD k default).framesSinceLastUpdate + 1) := by
  obtain ⟨cs, hlen, hout, hflags, hcond⟩ :=
    matchTracks_spec peaks (ageTracks tracks) (List.replicate peaks.length false)
  have hout2 : (performGreedyMatching (ageTracks tracks) peaks).1 =
      List.zipWith (applyChoice peaks) (ageTracks tracks) cs := hout
  have hagel : (ageTracks tracks).length = tracks.length := List.length_map _ _
  refine ⟨cs, hlen.trans hagel, hout2, ?_⟩
  intro k hk
  have hkage : k < (ageTracks tracks).length := by rw [hagel]; exact hk
  have hkcs : k < cs.length := by rw [hlen]; exact hkage
  have hkz : k < (List.zipWith (applyChoice peaks) (ageTracks tracks) cs).length := by
    rw [List.length_zipWith]
    exact lt_min hkage hkcs
  have hkm : k < (performGreedyMatching (ageTracks tracks) peaks).1.length := by
    rw [hout2]; exact hkz
  have hkf : k < (fadeStep (performGreedyMatching (ageTracks tracks) peaks).1).length := by
    rw [fadeStep, List.length_map]
    exact hkm
  set t0 := tracks.getD k default with ht0
  have e3 : (ageTracks tracks).getD k default =
      { t0 with framesSinceLastUpdate := t0.framesSinceLastUpdate + 1 } := by
    rw [List.getD_eq_getElem _ _ hkage]
    simp only [ageTracks, List.getElem_map]
    rw [ht0, List.getD_eq_getElem _ _ hk]
  have e2 : (performGreedyMatching (ageTracks tracks) peaks).1.getD k default =
      applyChoice peaks
        { t0 with framesSinceLastUpdate := t0.framesSinceLastUpdate + 1 }
        (cs.getD k none) := by
    rw [List.getD_eq_getElem?_getD, hout2, List.getElem?_eq_getElem hkz,
      List.getElem_zipWith, Option.getD_some,
      ← List.getD_eq_getElem (ageTracks tracks) default hkage,
      ← List.getD_eq_getElem cs none hkcs, e3]
  have e1 : (fadeStep (performGreedyMatching (ageTracks tracks) peaks).1).getD k default =
      (fun t => if t.framesSinceLastUpdate = 1 then t.fadeOut else t)
        ((performGreedyMatching (ageTracks tracks) peaks).1.getD k default) := by
    rw [List.getD_eq_getElem _ _ hkf]
    simp only [fadeStep, List.getElem_map]
    rw [← List.getD_eq_getElem _ default hkm]
  rw [e1, e2]
  cases hc : cs.getD k none with
  | some j =>
    constructor
    · intro _
      simp [applyChoice, PartialTrack.updateFromPeak]
    · intro hnone
      exact absurd hnone (by simp)
  | none =>
    constructor
    · intro hne; exact absurd rfl hne
    · intro _
      by_cases h0 : t0.framesSinceLastUpdate = 0
      · simp [applyChoice, h0, PartialTrack.fadeOut]
      · have hne1 : t0.framesSinceLastUpdate + 1 ≠ 1 := by omega
        simp [applyChoice, hne1, h0]

/-- C2 amended witness: the dynamics evaluated on a concrete one-track list
and an empty peak frame. -/
theorem framesSinceLastUpdate_dynamics_witness :
    ∃ cs : List (Option ℕ),
      cs.length = [witnessTrack].length ∧
      (performGreedyMatching (ageTracks [witnessTrack]) []).1 =
        List.zipWith (applyChoice []) (ageTracks [witnessTrack]) cs ∧
      ∀ k, k < [witnessTrack].length →
        (cs.getD k none ≠ none →
          ((fadeStep (performGreedyMatching (ageTracks [witnessTrack]) []).1).getD
            k default).framesSinceLastUpdate = 0) ∧
        (cs.getD k none = none →
          ((fadeStep (performGreedyMatching (ageTracks [witnessTrack]) []).1).getD
            k default).framesSinceLastUpdate =
            if ([witnessTrack].getD k default).framesSinceLastUpdate = 0 then 2
            else ([witnessTrack].getD k default).framesSinceLastUpdate + 1) :=
  framesSinceLastUpdate_dynamics [witnessTrack] []

/-! ## Peak extractor lemmas -/

theorem extractRel_length_le {mags : List ℚ} {sr : ℚ} {N : ℕ} {phase : ℕ → ℚ}
    {maxP : ℕ} {out : List SpectralPeak}
    (h : ExtractRel mags sr N phase maxP out) : out.length ≤ maxP := by
  obtain ⟨sorted, _, _, rfl⟩ := h
  rw [List.length_take]
  omega

theorem isLocalMax_iff {mags : List ℚ} {i : ℕ} :
    isLocalMax mags i = true ↔
      1 ≤ i ∧ i + 1 < mags.length ∧
        mags.getD (i - 1) 0 < mags.getD i 0 ∧
        mags.getD (i + 1) 0 < mags.getD i 0 := by
  simp [isLocalMax, Bool.and_eq_true, decide_eq_true_eq, and_assoc]

theorem mem_extractCandidates {mags : List ℚ} {sr : ℚ} {N : ℕ}
    {phase : ℕ → ℚ} {p : SpectralPeak} :
    p ∈ extractCandidates mags sr N phase ↔
      ∃ i, isLocalMax mags i = true ∧ p = mkCandidate mags sr N phase i := by
  constructor
  · intro hp
    rcases List.mem_filterMap.mp hp with ⟨i, _, hf⟩
    by_cases hl : isLocalMax mags i
    · rw [if_pos hl] at hf
      exact ⟨i, hl, (Option.some.inj hf).symm⟩
    · rw [if_neg hl] at hf
      exact absurd hf (by simp)
  · rintro ⟨i, hl, rfl⟩
    apply List.mem_filterMap.mpr
    refine ⟨i, List.mem_range.mpr ?_, by rw [if_pos hl]⟩
    have := (isLocalMax_iff.mp hl).2.1
    omega

theorem qclamp_mem {lo hi v : ℚ} (h : lo ≤ hi) :
    lo ≤ qclamp lo hi v ∧ qclamp lo hi v ≤ hi := by
  unfold qclamp
  split_ifs with h1 h2 <;> constructor <;> linarith

theorem abs_computeDelta_le (ym y0 yp : ℚ) : |computeDelta ym y0 yp| ≤ 1/2 := by
  unfold computeDelta
  split_ifs with h
  · have hq := @qclamp_mem (-(1/2)) (1/2)
      ((ym - yp) / (2 * (2 * y0 - yp - ym))) (by norm_num)
    rw [abs_le]
    exact ⟨hq.1, hq.2⟩
  · simp

theorem computeDelta_degenerate {ym y0 yp : ℚ}
    (h : |2 * (2 * y0 - yp - ym)| ≤ 1 / 10 ^ 10) : computeDelta ym y0 yp = 0 := by
  unfold computeDelta
  exact if_neg (not_lt.mpr h)

/-- Every candidate peak satisfies the SpectralPeak invariants, provided the
magnitudes are nonnegative (they are complex moduli divided by the FFT size),
the sample rate is nonnegative, and the bin count is at most fftSize/2 + 1
(the engine always passes numBins = fftSize/2 + 1). -/
theorem candidate_invariants {mags : List ℚ} {sr : ℚ} {N : ℕ}
    {phase : ℕ → ℚ} (hm : ∀ m ∈ mags, 0 ≤ m) (hsr : 0 ≤ sr) (hN : 0 < N)
    (hbins : mags.length ≤ N / 2 + 1) :
    ∀ p ∈ extractCandidates mags sr N phase,
      0 ≤ p.frequency ∧ p.frequency ≤ sr / 2 ∧ 0 ≤ p.magnitude ∧
      1 ≤ p.binIndex ∧ p.binIndex ≤ mags.length - 2 := by
  intro p hp
  rcases mem_extractCandidates.mp hp with ⟨i, hl, rfl⟩
  rcases isLocalMax_iff.mp hl with ⟨h1, h2, h3, h4⟩
  have hymem : mags.getD (i - 1) 0 ∈ mags := by
    rw [List.getD_eq_getElem _ _ (by omega : i - 1 < mags.length)]
    exact List.getElem_mem _
  have hy0mem : mags.getD i 0 ∈ mags := by
    rw [List.getD_eq_getElem _ _ (by omega : i < mags.length)]
    exact List.getElem_mem _
  have hypmem : mags.getD (i + 1) 0 ∈ mags := by
    rw [List.getD_eq_getElem _ _ (by omega : i + 1 < mags.length)]
    exact List.getElem_mem _
  have hym : 0 ≤ mags.getD (i - 1) 0 := hm _ hymem
  have hyp : 0 ≤ mags.getD (i + 1) 0 := hm _ hypmem
  set ym := mags.getD (i - 1) 0
  set y0 := mags.getD i 0
  set yp := mags.getD (i + 1) 0
  set dlt := computeDelta ym y0 yp with hdlt
  have habs := abs_le.mp (abs_computeDelta_le ym y0 yp)
  rw [← hdlt] at habs
  have hNq : (0 : ℚ) < (N : ℚ) := by exact_mod_cast hN
  have hfreq : (mkCandidate mags sr N phase i).frequency =
      ((i : ℚ) + dlt) * sr / (N : ℚ) := rfl
  have hmagn : (mkCandidate mags sr N phase i).magnitude =
      y0 - (1/4) * (ym - yp) * dlt := rfl
  have hbin : (mkCandidate mags sr N phase i).binIndex = i := rfl
  have hicast : (1 : ℚ) ≤ (i : ℚ) := by exact_mod_cast h1
  refine ⟨?_, ?_, ?_, ?_, ?_⟩
  · rw [hfreq]
    apply div_nonneg _ (le_of_lt hNq)
    apply mul_nonneg _ hsr
    linarith
  · rw [hfreq]
    have hiN : (i : ℚ) + dlt ≤ (N : ℚ) / 2 := by
      have hidiv : i + 1 ≤ N / 2 := by omega
      have hcast : ((i : ℚ) + 1) ≤ ((N / 2 : ℕ) : ℚ) := by exact_mod_cast hidiv
      have hdivle : ((N / 2 : ℕ) : ℚ) ≤ (N : ℚ) / 2 := by
        have hc : ((N / 2 : ℕ) : ℚ) ≤ ((N : ℕ) : ℚ) / ((2 : ℕ) : ℚ) :=
          Nat.cast_div_le
        simpa using hc
      linarith
    have hmul : ((i : ℚ) + dlt) * sr ≤ ((N : ℚ) / 2) * sr :=
      mul_le_mul_of_nonneg_right hiN hsr
    have hdiv : ((i : ℚ) + dlt) * sr / (N : ℚ) ≤ ((N : ℚ) / 2) * sr / (N : ℚ) :=
      div_le_div_of_le_of_nonneg hmul hNq.le
    have heq : ((N : ℚ) / 2) * sr / (N : ℚ) = sr / 2 := by
      field_simp
      ring
    linarith
  · rw [hmagn]
    have habs1 : |ym - yp| ≤ y0 := by
      rw [abs_le]
      constructor <;> linarith
    have habs2 : |(ym - yp) * dlt| ≤ y0 * (1/2) := by
      rw [abs_mul]
      exact mul_le_mul habs1 (abs_le.mpr habs) (abs_nonneg _)
        (le_trans (abs_nonneg _) habs1)
    have hb1 := le_abs_self ((ym - yp) * dlt)
    have hb2 := neg_abs_le ((ym - yp) * dlt)
    nlinarith
  · rw [hbin]; exact h1
  · rw [hbin]; omega

/-! ## Claim C7: invariants of extracted peaks -/

/-- C7: every peak returned by `extractDominantPeaks` has
`0 ≤ frequency ≤ sample_rate/2`, nonnegative magnitude, and
`binIndex ∈ [1, numBins-2]`; moreover the sub-bin offset is always clamped
to [-1/2, 1/2] and equals 0 whenever the interpolation denominator has
absolute value at most 1e-10. -/
theorem extracted_peaks_invariants (mags : List ℚ) (sr : ℚ) (N : ℕ)
    (phase : ℕ → ℚ) (maxP : ℕ) (out : List SpectralPeak)
    (hm : ∀ m ∈ mags, 0 ≤ m) (hsr : 0 ≤ sr) (hN : 0 < N)
    (hbins : mags.length ≤ N / 2 + 1)
    (hrel : ExtractRel mags sr N phase maxP out) :
    (∀ p ∈ out,
      0 ≤ p.frequency ∧ p.frequency ≤ sr / 2 ∧ 0 ≤ p.magnitude ∧
      1 ≤ p.binIndex ∧ p.binIndex ≤ mags.length - 2) ∧
    ∀ ym y0 yp : ℚ, |computeDelta ym y0 yp| ≤ 1/2 ∧
      (|2 * (2 * y0 - yp - ym)| ≤ 1 / 10 ^ 10 → computeDelta ym y0 yp = 0) := by
  refine ⟨?_, fun ym y0 yp =>
    ⟨abs_computeDelta_le ym y0 yp, computeDelta_degenerate⟩⟩
  intro p hp
  obtain ⟨sorted, hperm, _, rfl⟩ := hrel
  have hpc : p ∈ extractCandidates mags sr N phase :=
    hperm.mem_iff.mpr (List.take_subset _ _ hp)
  exact candidate_invariants hm hsr hN hbins p hpc

/-- C7 witness: a concrete three-bin spectrum with one peak, at
sample rate 2 and FFT size 4 (so numBins = 3 = 4/2 + 1). -/
theorem extracted_peaks_invariants_witness :
    (∀ m ∈ ([0, 1, 0] : List ℚ), 0 ≤ m) ∧ (0 : ℚ) ≤ 2 ∧ 0 < 4 ∧
    ([0, 1, 0] : List ℚ).length ≤ 4 / 2 + 1 ∧
    ExtractRel [0, 1, 0] 2 4 (fun _ => 0) 33
      [mkCandidate [0, 1, 0] 2 4 (fun _ => 0) 1] ∧
    ((∀ p ∈ [mkCandidate [0, 1, 0] 2 4 (fun _ => 0) 1],
      0 ≤ p.frequency ∧ p.frequency ≤ (2 : ℚ) / 2 ∧ 0 ≤ p.magnitude ∧
      1 ≤ p.binIndex ∧ p.binIndex ≤ ([0, 1, 0] : List ℚ).length - 2) ∧
    ∀ ym y0 yp : ℚ, |computeDelta ym y0 yp| ≤ 1/2 ∧
      (|2 * (2 * y0 - yp - ym)| ≤ 1 / 10 ^ 10 → computeDelta ym y0 yp = 0)) := by
  have hm : ∀ m ∈ ([0, 1, 0] : List ℚ), 0 ≤ m := by
    intro m hm
    rcases List.mem_cons.mp hm with h | h
    · rw [h]
    · rcases List.mem_cons.mp h with h | h
      · rw [h]; norm_num
      · rcases List.mem_cons.mp h with h | h
        · rw [h]
        · simp at h
  have hrel : ExtractRel [0, 1, 0] 2 4 (fun _ => 0) 33
      [mkCandidate [0, 1, 0] 2 4 (fun _ => 0) 1] := by
    refine ⟨[mkCandidate [0, 1, 0] 2 4 (fun _ => 0) 1], ?_, ?_, rfl⟩
    · exact List.Perm.refl _
    · exact List.pairwise_singleton _ _
  exact ⟨hm, by norm_num, by norm_num, by norm_num, hrel,
    extracted_peaks_invariants [0, 1, 0] 2 4 (fun _ => 0) 33 _
      hm (by norm_num) (by norm_num) (by norm_num) hrel⟩

/-! ## Claim C4: output peak ordering -/

/-- C4 counterexample: with the spectrum [0,1,0,1,0] there are two candidate
peaks of equal magnitude 1 at bins 1 and 3.  `std::sort` with the strict
magnitude comparator gives no guarantee on the order of ties, so the output
with bin 3 before bin 1 is a legal result of `extractDominantPeaks`, and it
is not strictly-decreasing-with-ascending-bin-tie-break ordered. -/
theorem extract_sort_tie_counterexample :
    ExtractRel [0, 1, 0, 1, 0] 10 8 (fun _ => 0) 33
      [mkCandidate [0, 1, 0, 1, 0] 10 8 (fun _ => 0) 3,
       mkCandidate [0, 1, 0, 1, 0] 10 8 (fun _ => 0) 1] ∧
    ¬ LexSorted
      [mkCandidate [0, 1, 0, 1, 0] 10 8 (fun _ => 0) 3,
       mkCandidate [0, 1, 0, 1, 0] 10 8 (fun _ => 0) 1] := by
  have hmag1 : (mkCandidate [0, 1, 0, 1, 0] 10 8 (fun _ => 0) 1).magnitude = 1 := by
    norm_num [mkCandidate, computeDelta, qclamp]
  have hmag3 : (mkCandidate [0, 1, 0, 1, 0] 10 8 (fun _ => 0) 3).magnitude = 1 := by
    norm_num [mkCandidate, computeDelta, qclamp]
  constructor
  · refine ⟨[mkCandidate [0, 1, 0, 1, 0] 10 8 (fun _ => 0) 3,
      mkCandidate [0, 1, 0, 1, 0] 10 8 (fun _ => 0) 1], ?_, ?_, rfl⟩
    · exact List.Perm.swap _ _ _
    · refine List.pairwise_cons.mpr ⟨?_, List.pairwise_singleton _ _⟩
      intro b hb
      rw [List.mem_singleton] at hb
      subst hb
      rw [hmag1, hmag3]
  · intro h
    have hpair := (List.pairwise_cons.mp h).1 _ (List.mem_singleton_self _)
    rcases hpair with hlt | ⟨_, hbin⟩
    · rw [hmag1, hmag3] at hlt
      exact absurd hlt (lt_irrefl 1)
    · have hb3 : (mkCandidate [0, 1, 0, 1, 0] 10 8 (fun _ => 0) 3).binIndex = 3 := rfl
      have hb1 : (mkCandidate [0, 1, 0, 1, 0] 10 8 (fun _ => 0) 1).binIndex = 1 := rfl
      rw [hb3, hb1] at hbin
      omega

/-- C4 amended: every possible output of `extractDominantPeaks` has length at
most `max_peaks`, is sorted by non-increasing magnitude, and consists of
candidate peaks; but the order of equal-magnitude peaks is unspecified
because `std::sort` is not stable, so ties need not be in ascending bin
order. -/
theorem extract_output_sorted_bounded (mags : List ℚ) (sr : ℚ) (N : ℕ)
    (phase : ℕ → ℚ) (maxP : ℕ) (out : List SpectralPeak)
    (h : ExtractRel mags sr N phase maxP out) :
    out.length ≤ maxP ∧ MagSortedGE out ∧
    ∀ p ∈ out, p ∈ extractCandidates mags sr N phase := by
  refine ⟨extractRel_length_le h, ?_, ?_⟩
  · obtain ⟨sorted, _, hsort, rfl⟩ := h
    exact List.Pairwise.sublist (List.take_sublist _ _) hsort
  · obtain ⟨sorted, hperm, _, rfl⟩ := h
    intro p hp
    exact hperm.mem_iff.mpr (List.take_subset _ _ hp)

/-- C4 amended witness: the amended statement evaluated on the concrete
spectrum [0,1,0]. -/
theorem extract_output_sorted_bounded_witness :
    ExtractRel [0, 1, 0] 2 4 (fun _ => 0) 7
      [mkCandidate [0, 1, 0] 2 4 (fun _ => 0) 1] ∧
    ([mkCandidate [0, 1, 0] 2 4 (fun _ => 0) 1].length ≤ 7 ∧
      MagSortedGE [mkCandidate [0, 1, 0] 2 4 (fun _ => 0) 1] ∧
      ∀ p ∈ [mkCandidate [0, 1, 0] 2 4 (fun _ => 0) 1],
        p ∈ extractCandidates [0, 1, 0] 2 4 (fun _ => 0)) := by
  have hrel : ExtractRel [0, 1, 0] 2 4 (fun _ => 0) 7
      [mkCandidate [0, 1, 0] 2 4 (fun _ => 0) 1] := by
    refine ⟨[mkCandidate [0, 1, 0] 2 4 (fun _ => 0) 1], ?_, ?_, rfl⟩
    · exact List.Perm.refl _
    · exact List.pairwise_singleton _ _
  exact ⟨hrel, extract_output_sorted_bounded [0, 1, 0] 2 4 (fun _ => 0) 7 _ hrel⟩

/-! ## Claim C9: candidate count versus the reserved capacity -/

/-- C9 counterexample: with numBins = 8 and the spectrum
[0,1,0,1,0,1,0,0] there are 3 candidate local maxima (bins 1, 3, 5), which
exceeds the pre-reserved capacity numBins/4 = 2, so the candidate vector can
grow beyond its reservation within a frame. -/
theorem candidate_reserve_exceeded :
    (extractCandidates [0, 1, 0, 1, 0, 1, 0, 0] 8 16 (fun _ => 0)).length = 3 ∧
    ([0, 1, 0, 1, 0, 1, 0, 0] : List ℚ).length / 4 < 3 :=
  ⟨rfl, by norm_num⟩

theorem filterMap_if_eq_map_filter (f : ℕ → SpectralPeak) (p : ℕ → Bool) :
    ∀ l : List ℕ,
      l.filterMap (fun i => if p i then some (f i) else none) =
        (l.filter p).map f := by
  intro l
  induction l with
  | nil => rfl
  | cons a rest ih => by_cases hp : p a <;> simp [hp, ih]

theorem filter_no_adjacent_le (p : ℕ → Bool)
    (hadj : ∀ i, p i = true → p (i + 1) = false) :
    ∀ (m a : ℕ), ((List.range' a m).filter p).length ≤ (m + 1) / 2 := by
  intro m
  induction m using Nat.strong_induction_on with
  | _ m ih =>
    match m with
    | 0 => intro a; simp
    | 1 =>
      intro a
      have h1 : List.range' a 1 = [a] := rfl
      rw [h1]
      by_cases hp : p a <;> simp [hp]
    | (m + 2) =>
      intro a
      have hr : List.range' a (m + 2) = a :: (a + 1) :: List.range' (a + 2) m := by
        rw [List.range'_succ, List.range'_succ]
      rw [hr]
      have hrec := ih m (by omega) (a + 2)
      by_cases hpa : p a
      · have hpb : p (a + 1) = false := hadj a hpa
        simp [List.filter_cons, hpa, hpb]
        omega
      · rw [Bool.not_eq_true] at hpa
        by_cases hpb : p (a + 1)
        · simp [List.filter_cons, hpa, hpb]
          omega
        · rw [Bool.not_eq_true] at hpb
          simp [List.filter_cons, hpa, hpb]
          omega

/-- C9 amended: the number of candidate local maxima is bounded by
(numBins - 1)/2 (adjacent bins cannot both be strict local maxima, and bins
0 and numBins-1 never qualify), which can exceed the reserved numBins/4, so
the reservation is only an estimate; the returned list never exceeds
max_peaks entries. -/
theorem candidate_count_bound (mags : List ℚ) (sr : ℚ) (N : ℕ)
    (phase : ℕ → ℚ) :
    (extractCandidates mags sr N phase).length ≤ (mags.length - 1) / 2 ∧
    ∀ maxP out, ExtractRel mags sr N phase maxP out → out.length ≤ maxP := by
  constructor
  · rw [extractCandidates,
      filterMap_if_eq_map_filter (mkCandidate mags sr N phase) (isLocalMax mags),
      List.length_map]
    have hadj : ∀ i, isLocalMax mags i = true → isLocalMax mags (i + 1) = false := by
      intro i hi
      rcases isLocalMax_iff.mp hi with ⟨_, _, _, h4⟩
      rw [← Bool.not_eq_true]
      intro hx
      rcases isLocalMax_iff.mp hx with ⟨_, _, h3b, _⟩
      have hsimp : i + 1 - 1 = i := by omega
      rw [hsimp] at h3b
      exact absurd h3b (not_lt.mpr (le_of_lt h4))
    match hn : mags.length with
    | 0 => simp
    | 1 =>
      have h0 : isLocalMax mags 0 = false := by
        rw [← Bool.not_eq_true]
        intro hx
        exact absurd (isLocalMax_iff.mp hx).1 (by omega)
      simp [List.range_eq_range', List.range'_succ, List.filter_cons, h0]
    | (n + 2) =>
      have h0 : isLocalMax mags 0 = false := by
        rw [← Bool.not_eq_true]
        intro hx
        exact absurd (isLocalMax_iff.mp hx).1 (by omega)
      have hlast : isLocalMax mags (n + 1) = false := by
        rw [← Bool.not_eq_true]
        intro hx
        have := (isLocalMax_iff.mp hx).2.1
        omega
      have hsplit : List.range (n + 2) =
          0 :: (List.range' 1 n ++ [n + 1]) := by
        rw [List.range_eq_range', List.range'_succ]
        congr 1
        have hcc := @List.range'_concat 1 1 n
        simpa [Nat.add_comm] using hcc
      rw [hsplit]
      have hb := filter_no_adjacent_le (isLocalMax mags) hadj n 1
      simp [List.filter_cons, h0, hlast, List.filter_append]
      omega
  · intro maxP out h
    exact extractRel_length_le h

/-- C9 amended witness: the bound evaluated on the concrete spectrum
[0,1,0] with max_peaks = 1. -/
theorem candidate_count_bound_witness :
    ExtractRel [0, 1, 0] 2 4 (fun _ => 0) 1
      [mkCandidate [0, 1, 0] 2 4 (fun _ => 0) 1] ∧
    ((extractCandidates [0, 1, 0] 2 4 (fun _ => 0)).length ≤
      (([0, 1, 0] : List ℚ).length - 1) / 2 ∧
      [mkCandidate [0, 1, 0] 2 4 (fun _ => 0) 1].length ≤ 1) := by
  have hrel : ExtractRel [0, 1, 0] 2 4 (fun _ => 0) 1
      [mkCandidate [0, 1, 0] 2 4 (fun _ => 0) 1] := by
    refine ⟨[mkCandidate [0, 1, 0] 2 4 (fun _ => 0) 1], ?_, ?_, rfl⟩
    · exact List.Perm.refl _
    · exact List.pairwise_singleton _ _
  exact ⟨hrel, (candidate_count_bound [0, 1, 0] 2 4 (fun _ => 0)).1,
    (candidate_count_bound [0, 1, 0] 2 4 (fun _ => 0)).2 1 _ hrel⟩

/-! ## Modifier chain lemmas -/

theorem getOrInsert0_fst (m : AmpMap) (k : ℤ) :
    (m.getOrInsert0 k).1 = m.getD0 k := by
  unfold AmpMap.getOrInsert0 AmpMap.getD0
  cases h : List.lookup k m <;> simp [h]

theorem lookup_setVal_self (k : ℤ) (v : ℚ) :
    ∀ m : AmpMap, List.lookup k (m.setVal k v) = some v := by
  intro m
  induction m with
  | nil => simp [AmpMap.setVal, List.lookup]
  | cons e rest ih =>
    obtain ⟨k2, v2⟩ := e
    by_cases h : k2 = k
    · subst h
      simp [AmpMap.setVal, List.lookup]
    · have hb : (k == k2) = false := beq_eq_false_iff_ne.mpr (Ne.symm h)
      simp only [AmpMap.setVal, if_neg h, List.lookup, hb]
      exact ih

theorem lookup_setVal_ne (k : ℤ) (v : ℚ) (k2 : ℤ) (hne : k2 ≠ k) :
    ∀ m : AmpMap, List.lookup k2 (m.setVal k v) = List.lookup k2 m := by
  intro m
  have hb : (k2 == k) = false := beq_eq_false_iff_ne.mpr hne
  induction m with
  | nil => simp [AmpMap.setVal, List.lookup, hb]
  | cons e rest ih =>
    obtain ⟨k3, v3⟩ := e
    by_cases h : k3 = k
    · subst h
      simp only [AmpMap.setVal, if_pos rfl, List.lookup, hb]
    · simp only [AmpMap.setVal, if_neg h, List.lookup]
      by_cases h2 : k2 = k3
      · have hb2 : (k2 == k3) = true := beq_iff_eq.mpr h2
        simp only [hb2]
      · have hb2 : (k2 == k3) = false := beq_eq_false_iff_ne.mpr h2
        simp only [hb2]
        exact ih

theorem lookup_getOrInsert0_ne (m : AmpMap) (k k2 : ℤ) (hne : k2 ≠ k) :
    List.lookup k2 (m.getOrInsert0 k).2 = List.lookup k2 m := by
  unfold AmpMap.getOrInsert0
  cases h : List.lookup k m with
  | some v => simp
  | none =>
    have hb : (k2 == k) = false := beq_eq_false_iff_ne.mpr hne
    simp only [List.lookup, hb]

theorem hasKey_setVal {m : AmpMap} {k2 : ℤ} (k : ℤ) (v : ℚ)
    (h : m.hasKey k2 = true) : (m.setVal k v).hasKey k2 = true := by
  unfold AmpMap.hasKey at h ⊢
  by_cases hk : k2 = k
  · subst hk
    rw [lookup_setVal_self]
    rfl
  · rw [lookup_setVal_ne k v k2 hk]
    exact h

theorem hasKey_getOrInsert0 {m : AmpMap} {k2 : ℤ} (k : ℤ)
    (h : m.hasKey k2 = true) : (m.getOrInsert0 k).2.hasKey k2 = true := by
  unfold AmpMap.hasKey at h ⊢
  by_cases hk : k2 = k
  · subst hk
    unfold AmpMap.getOrInsert0
    cases hl : List.lookup k2 m with
    | some v => simpa [hl] using h
    | none => simp [List.lookup]
  · rw [lookup_getOrInsert0_ne m k k2 hk]
    exact h

/-- The complete effect of one modifier-loop iteration on the two sparse
maps: existing keys persist, keys other than the track's id keep their
values, and for an in-window active track both maps end holding the track's
final amplitude. -/
theorem modifyTrack_maps (P : ModParams) (maps : AmpMap × AmpMap)
    (t : PartialTrack) :
    (∀ k2, maps.1.hasKey k2 = true →
      (modifyTrack P maps t).2.1.hasKey k2 = true) ∧
    (∀ k2, maps.2.hasKey k2 = true →
      (modifyTrack P maps t).2.2.hasKey k2 = true) ∧
    (∀ k2, k2 ≠ t.trackID →
      List.lookup k2 (modifyTrack P maps t).2.1 = List.lookup k2 maps.1 ∧
      List.lookup k2 (modifyTrack P maps t).2.2 = List.lookup k2 maps.2) ∧
    (t.isActive = true → P.minFreq ≤ t.frequency → t.frequency ≤ P.maxFreq →
      List.lookup t.trackID (modifyTrack P maps t).2.1 =
        some (modifyTrack P maps t).1.amplitude ∧
      List.lookup t.trackID (modifyTrack P maps t).2.2 =
        some (modifyTrack P maps t).1.amplitude) := by
  by_cases hact : t.isActive = true
  · by_cases hwin : t.frequency < P.minFreq ∨ P.maxFreq < t.frequency
    · have hres : modifyTrack P maps t = ({ t with isActive := false }, maps) := by
        unfold modifyTrack
        rw [hact]
        simp only [Bool.not_true, Bool.false_eq_true, if_false]
        rw [if_pos hwin]
      rw [hres]
      refine ⟨fun k2 h => h, fun k2 h => h, fun k2 _ => ⟨rfl, rfl⟩, ?_⟩
      intro _ h1 h2
      rcases hwin with h | h
      · exact absurd h1 (not_le.mpr h)
      · exact absurd h2 (not_le.mpr h)
    · unfold modifyTrack
      rw [hact]
      simp only [Bool.not_true, Bool.false_eq_true, if_false, if_neg hwin]
      by_cases hblur : 0 < P.blur <;> by_cases hfb : 0 < P.feedback <;>
        simp only [hblur, hfb, if_true, if_false] <;>
        refine ⟨fun k2 hk => ?_, fun k2 hk => ?_, fun k2 hk => ⟨?_, ?_⟩,
          fun _ _ _ => ⟨?_, ?_⟩⟩ <;>
      first
      | (solve
          | (repeat
              first
              | exact hk
              | apply hasKey_setVal
              | apply hasKey_getOrInsert0))
      | (solve
          | (simp only [lookup_setVal_ne _ _ _ hk, lookup_getOrInsert0_ne _ _ _ hk]))
      | exact lookup_setVal_self _ _ _
  · have hres : modifyTrack P maps t = (t, maps) := by
      unfold modifyTrack
      rw [Bool.not_eq_true] at hact
      rw [hact]
      rfl
    rw [hres]
    exact ⟨fun k2 h => h, fun k2 h => h, fun k2 _ => ⟨rfl, rfl⟩,
      fun h => absurd h hact⟩

/-! ## Claim C8: the frequency window and the modifier order -/

/-- C8: the code's frequency-window bounds agree with the specification's
formulas; every active track outside [f_min, f_max] is deactivated with its
frequency, amplitude and the per-partial maps untouched (it receives no
modifier); and every in-window active track receives blur, feedback, warp,
fine shift and octave, in that order, as the specification words them
(given the parameter-range facts the engine guarantees: blur and feedback
are nonnegative, and the warp ratio is 1 at the neutral warp setting). -/
theorem modifier_chain_spec :
    (∀ c b : ℝ, windowBounds c b = specWindowBounds c b) ∧
    ∀ (P : ModParams) (maps : AmpMap × AmpMap) (t : PartialTrack),
      t.isActive = true →
      ((t.frequency < P.minFreq ∨ P.maxFreq < t.frequency →
        modifyTrack P maps t = ({ t with isActive := false }, maps)) ∧
       (P.minFreq ≤ t.frequency → t.frequency ≤ P.maxFreq →
        0 ≤ P.blur → 0 ≤ P.feedback → (P.warp = 1/2 → P.warpRatio = 1) →
        (modifyTrack P maps t).1 =
          { t with
            amplitude :=
              specFeedbackAmp P.feedback (maps.2.getD0 t.trackID)
                (specBlurAmp P.blur (maps.1.getD0 t.trackID) t.amplitude)
            frequency :=
              specFreqPipeline P.warpRatio P.freqRatio P.octaveRatio
                t.frequency })) := by
  constructor
  · intro c b
    simp only [windowBounds, specWindowBounds]
    rw [mul_comm b 59]
  · intro P maps t hact
    constructor
    · intro hwin
      unfold modifyTrack
      rw [hact]
      simp only [Bool.not_true, Bool.false_eq_true, if_false]
      rw [if_pos hwin]
    · intro h1 h2 hb hf hw
      have hnot : ¬(t.frequency < P.minFreq ∨ P.maxFreq < t.frequency) := by
        push_neg
        exact ⟨h1, h2⟩
      unfold modifyTrack
      rw [hact]
      simp only [Bool.not_true, Bool.false_eq_true, if_false, if_neg hnot]
      by_cases hblur : 0 < P.blur <;> by_cases hfb : 0 < P.feedback <;>
        by_cases hwarp : P.warp = 1/2
      all_goals
        first
        | (have hw1 : P.warpRatio = 1 := hw hwarp
           simp only [hblur, hfb, hwarp, if_true, if_false, ne_eq,
             not_true_eq_false, not_false_eq_true, getOrInsert0_fst, hw1])
        | simp only [hblur, hfb, hwarp, if_true, if_false, ne_eq,
            not_true_eq_false, not_false_eq_true, getOrInsert0_fst]
      all_goals
        first
        | (have hb0 : P.blur = 0 := le_antisymm (not_lt.mp hblur) hb
           have hf0 : P.feedback = 0 := le_antisymm (not_lt.mp hfb) hf
           congr 1 <;>
             simp only [specBlurAmp, specFeedbackAmp, specFreqPipeline,
               hb0, hf0] <;> ring)
        | (have hb0 : P.blur = 0 := le_antisymm (not_lt.mp hblur) hb
           congr 1 <;>
             simp only [specBlurAmp, specFeedbackAmp, specFreqPipeline, hb0] <;>
             ring)
        | (have hf0 : P.feedback = 0 := le_antisymm (not_lt.mp hfb) hf
           congr 1 <;>
             simp only [specBlurAmp, specFeedbackAmp, specFreqPipeline, hf0] <;>
             ring)
        | (congr 1 <;>
             simp only [specBlurAmp, specFeedbackAmp, specFreqPipeline] <;>
             ring)

/-- C8 witness: the in-window branch evaluated at the concrete neutral
modifier configuration and the concrete track at 105 Hz. -/
theorem modifier_chain_spec_witness :
    witnessTrack.isActive = true ∧
    witnessModParams.minFreq ≤ witnessTrack.frequency ∧
    witnessTrack.frequency ≤ witnessModParams.maxFreq ∧
    0 ≤ witnessModParams.blur ∧ 0 ≤ witnessModParams.feedback ∧
    (witnessModParams.warp = 1/2 → witnessModParams.warpRatio = 1) ∧
    (modifyTrack witnessModParams (([] : AmpMap), ([] : AmpMap)) witnessTrack).1 =
      { witnessTrack with
        amplitude :=
          specFeedbackAmp witnessModParams.feedback
            (AmpMap.getD0 (([] : AmpMap), ([] : AmpMap)).2 witnessTrack.trackID)
            (specBlurAmp witnessModParams.blur
              (AmpMap.getD0 (([] : AmpMap), ([] : AmpMap)).1 witnessTrack.trackID)
              witnessTrack.amplitude)
        frequency :=
          specFreqPipeline witnessModParams.warpRatio witnessModParams.freqRatio
            witnessModParams.octaveRatio witnessTrack.frequency } := by
  have h1 : witnessModParams.minFreq ≤ witnessTrack.frequency := by
    norm_num [witnessModParams, witnessTrack]
  have h2 : witnessTrack.frequency ≤ witnessModParams.maxFreq := by
    norm_num [witnessModParams, witnessTrack]
  have hb : (0 : ℚ) ≤ witnessModParams.blur := le_refl _
  have hf : (0 : ℚ) ≤ witnessModParams.feedback := le_refl _
  have hw : witnessModParams.warp = 1/2 → witnessModParams.warpRatio = 1 :=
    fun _ => rfl
  exact ⟨rfl, h1, h2, hb, hf, hw,
    ((modifier_chain_spec.2 witnessModParams (([] : AmpMap), ([] : AmpMap))
      witnessTrack rfl).2 h1 h2 hb hf hw)⟩

/-! ## Claim C10: the per-partial modifier state maps -/

theorem applyModifiers_lookup_preserved (P : ModParams) (id : ℤ) :
    ∀ (tracks : List PartialTrack) (maps : AmpMap × AmpMap),
      (∀ t2 ∈ tracks, t2.trackID ≠ id) →
      List.lookup id (applySpectralModifiers P tracks maps).2.1 =
        List.lookup id maps.1 ∧
      List.lookup id (applySpectralModifiers P tracks maps).2.2 =
        List.lookup id maps.2 := by
  intro tracks
  induction tracks with
  | nil => intro maps _; exact ⟨rfl, rfl⟩
  | cons t rest ih =>
    intro maps h
    have hne : id ≠ t.trackID :=
      Ne.symm (h t (List.mem_cons_self _ _))
    have hmt := (modifyTrack_maps P maps t).2.2.1 id hne
    have hrest := ih (modifyTrack P maps t).2
      (fun t2 ht2 => h t2 (List.mem_cons_of_mem _ ht2))
    simp only [applySpectralModifiers]
    exact ⟨hrest.1.trans hmt.1, hrest.2.trans hmt.2⟩

/-- C10: over one frame of the modifier chain, both sparse maps only gain
entries (no key is ever removed), and for every in-window active track (with
distinct track ids, as the tracker guarantees) both maps end the frame
holding exactly that track's final amplitude — independently of the blur and
feedback settings, including blur = 0 and feedback = 0. -/
theorem modifier_maps_monotone (P : ModParams) :
    ∀ (tracks : List PartialTrack) (maps : AmpMap × AmpMap),
      (tracks.map PartialTrack.trackID).Nodup →
      ((∀ k2, maps.1.hasKey k2 = true →
        (applySpectralModifiers P tracks maps).2.1.hasKey k2 = true) ∧
       (∀ k2, maps.2.hasKey k2 = true →
        (applySpectralModifiers P tracks maps).2.2.hasKey k2 = true) ∧
       ∀ k, k < tracks.length →
         (tracks.getD k default).isActive = true →
         P.minFreq ≤ (tracks.getD k default).frequency →
         (tracks.getD k default).frequency ≤ P.maxFreq →
         List.lookup (tracks.getD k default).trackID
             (applySpectralModifiers P tracks maps).2.1 =
           some (((applySpectralModifiers P tracks maps).1.getD k default).amplitude) ∧
         List.lookup (tracks.getD k default).trackID
             (applySpectralModifiers P tracks maps).2.2 =
           some (((applySpectralModifiers P tracks maps).1.getD k default).amplitude)) := by
  intro tracks
  induction tracks with
  | nil =>
    intro maps _
    exact ⟨fun _ h => h, fun _ h => h, by intro k hk; simp at hk⟩
  | cons t rest ih =>
    intro maps hnodup
    rw [List.map_cons, List.nodup_cons] at hnodup
    have hmt := modifyTrack_maps P maps t
    have hrec := ih (modifyTrack P maps t).2 hnodup.2
    refine ⟨?_, ?_, ?_⟩
    · intro k2 hk
      simp only [applySpectralModifiers]
      exact hrec.1 k2 (hmt.1 k2 hk)
    · intro k2 hk
      simp only [applySpectralModifiers]
      exact hrec.2.1 k2 (hmt.2.1 k2 hk)
    · intro k hk
      cases k with
      | zero =>
        intro hact h1 h2
        simp only [List.getD_cons_zero] at hact h1 h2
        have hself := hmt.2.2.2 hact h1 h2
        have hne : ∀ t2 ∈ rest, t2.trackID ≠ t.trackID := by
          intro t2 ht2 heq
          exact hnodup.1 (heq ▸ List.mem_map_of_mem PartialTrack.trackID ht2)
        have hpres := applyModifiers_lookup_preserved P t.trackID rest
          (modifyTrack P maps t).2 hne
        simp only [applySpectralModifiers, List.getD_cons_zero]
        exact ⟨hpres.1.trans hself.1, hpres.2.trans hself.2⟩
      | succ k2 =>
        intro hact h1 h2
        simp only [List.getD_cons_succ] at hact h1 h2
        have hk2 : k2 < rest.length := by simpa using hk
        simp only [applySpectralModifiers, List.getD_cons_succ]
        exact hrec.2.2 k2 hk2 hact h1 h2

/-- C10 witness: the map behavior evaluated on the concrete one-track list
with blur = 0 and feedback = 0 and initially empty maps. -/
theorem modifier_maps_monotone_witness :
    ([witnessTrack].map PartialTrack.trackID).Nodup ∧
    ((∀ k2, AmpMap.hasKey (([] : AmpMap), ([] : AmpMap)).1 k2 = true →
      (applySpectralModifiers witnessModParams [witnessTrack]
        (([] : AmpMap), ([] : AmpMap))).2.1.hasKey k2 = true) ∧
     (∀ k2, AmpMap.hasKey (([] : AmpMap), ([] : AmpMap)).2 k2 = true →
      (applySpectralModifiers witnessModParams [witnessTrack]
        (([] : AmpMap), ([] : AmpMap))).2.2.hasKey k2 = true) ∧
     ∀ k, k < [witnessTrack].length →
       ([witnessTrack].getD k default).isActive = true →
       witnessModParams.minFreq ≤ ([witnessTrack].getD k default).frequency →
       ([witnessTrack].getD k default).frequency ≤ witnessModParams.maxFreq →
       List.lookup ([witnessTrack].getD k default).trackID
           (applySpectralModifiers witnessModParams [witnessTrack]
             (([] : AmpMap), ([] : AmpMap))).2.1 =
         some (((applySpectralModifiers witnessModParams [witnessTrack]
             (([] : AmpMap), ([] : AmpMap))).1.getD k default).amplitude) ∧
       List.lookup ([witnessTrack].getD k default).trackID
           (applySpectralModifiers witnessModParams [witnessTrack]
             (([] : AmpMap), ([] : AmpMap))).2.2 =
         some (((applySpectralModifiers witnessModParams [witnessTrack]
             (([] : AmpMap), ([] : AmpMap))).1.getD k default).amplitude)) := by
  have hnd : ([witnessTrack].map PartialTrack.trackID).Nodup := by
    simp [witnessTrack]
  exact ⟨hnd, modifier_maps_monotone witnessModParams [witnessTrack]
    (([] : AmpMap), ([] : AmpMap)) hnd⟩

end Solaire
